import Mathlib

/-!
Verification of the Khmer word-segmenter core (normalizer, DP segmenter,
rule-based post-processor, unknown grouper) against its specification.

Modelling conventions:
* a JavaScript string is a list of UTF-16 code units (`List Nat`);
* floating-point costs are modelled as exact rationals (`Rat`), with
  `Option Rat` for the `Infinity` sentinel of unreached DP cells;
* the Unicode property test used by `_isSeparator` and the regular-expression
  engine used by `regex` triggers are abstract boolean parameters carried in
  the `Seg` / `Engine` structures (theorems hold for every instantiation);
* `Math.log10` is an abstract function parameter of the frequency loader.
-/

namespace KhSeg

/-- Zero-width space / non-joiner / joiner, always stripped. -/
def isZW (c : Nat) : Bool := c == 0x200B || c == 0x200C || c == 0x200D

/-- `replace(/[​‌‍]/g, '')`. -/
def stripZW (t : List Nat) : List Nat := t.filter (fun c => !isZW c)

/-- `_isValidSingleBaseChar`: consonants 0x1780-0x17A2, independent vowels 0x17A3-0x17B3. -/
def isValidSingleBase (c : Nat) : Bool :=
  decide ((0x1780 ≤ c ∧ c ≤ 0x17A2) ∨ (0x17A3 ≤ c ∧ c ≤ 0x17B3))

/-- `_isKhmerChar` (on one code unit). -/
def isKhmerCU (c : Nat) : Bool :=
  decide ((0x1780 ≤ c ∧ c ≤ 0x17FF) ∨ (0x19E0 ≤ c ∧ c ≤ 0x19FF))

/-- `_isDigit` on one code unit: ASCII or Khmer digit. -/
def isDigitCU (c : Nat) : Bool :=
  decide ((0x30 ≤ c ∧ c ≤ 0x39) ∨ (0x17E0 ≤ c ∧ c ≤ 0x17E9))

/-- A rule check (`{target, exists, check, value}` of the rules file). -/
structure Check where
  target : String
  mustExist : Bool
  ccheck : Option String
  cvalue : Option Bool
deriving DecidableEq

/-- A post-processing rule (`{priority, trigger:{type,value}, checks, action}`). -/
structure Rule where
  priority : Int
  ttype : String
  tvalue : List Nat
  checks : List Check
  action : String
deriving DecidableEq

/-- The segmenter state after construction.  `uniSep` abstracts the
`/\p{P}|\p{S}|\p{Z}/u` and `/\s/` tests; `regexOk` abstracts whether a regex
trigger pattern compiles; `regexTest` abstracts the compiled regex test. -/
structure Seg where
  words : List (List Nat)
  wordCosts : List (List Nat × Rat)
  defaultCost : Rat
  unknownCost : Rat
  maxWordLength : Nat
  uniSep : Nat → Bool
  regexOk : List Nat → Bool
  regexTest : List Nat → List Nat → Bool
  rulesData : List Rule

/-- `_isSeparator` on one code unit: Khmer punctuation 0x17D4-0x17DA, 0x17DB,
or the abstract Unicode property / whitespace test. -/
def isSepCU (S : Seg) (c : Nat) : Bool :=
  decide (0x17D4 ≤ c ∧ c ≤ 0x17DA) || (c == 0x17DB) || S.uniSep c

/-- `_isSeparator` on a string: false unless it is a single (separator) code unit. -/
def isSepStr (S : Seg) (w : List Nat) : Bool :=
  (w.length == 1) && isSepCU S (w.headD 0)

/-- `getWordCost`. -/
def getWordCost (S : Seg) (w : List Nat) : Rat :=
  match S.wordCosts.lookup w with
  | some c => c
  | none => if S.words.contains w then S.defaultCost else S.unknownCost

/-- `text.slice(i, j)`. -/
def sliceL (t : List Nat) (i j : Nat) : List Nat := (t.take j).drop i

/-- The scan of `_getKhmerClusterLength`: from position `i`, consume
coeng+consonant pairs and dependent vowels/signs; returns the end position.
The iteration budget (first argument) is a modelling artifact: every pass
advances the position, so a budget of `t.length` is always sufficient and the
exhausted case is never reached from the wrappers below. -/
def clusterLoop (t : List Nat) : Nat → Nat → Nat
  | 0, i => i
  | fuel + 1, i =>
    if i < t.length then
      if t.getD i 0 = 0x17D2 then
        if i + 1 < t.length ∧ 0x1780 ≤ t.getD (i+1) 0 ∧ t.getD (i+1) 0 ≤ 0x17A2 then
          clusterLoop t fuel (i + 2)
        else i
      else if (0x17B6 ≤ t.getD i 0 ∧ t.getD i 0 ≤ 0x17D1) ∨ t.getD i 0 = 0x17D3 ∨
          t.getD i 0 = 0x17DD then
        clusterLoop t fuel (i + 1)
      else i
    else i

/-- `_getKhmerClusterLength`. -/
def clusterLen (t : List Nat) (i : Nat) : Nat :=
  if i < t.length then
    if 0x1780 ≤ t.getD i 0 ∧ t.getD i 0 ≤ 0x17B3 then clusterLoop t t.length (i + 1) - i
    else 1
  else 0

/-- The scan of `_getNumberLength` after the first digit: digits, and `,`/`.`
only when immediately followed by a digit; returns the end position (with the
same always-sufficient iteration budget as `clusterLoop`). -/
def numLoop (t : List Nat) : Nat → Nat → Nat
  | 0, i => i
  | fuel + 1, i =>
    if i < t.length then
      if isDigitCU (t.getD i 0) then numLoop t fuel (i + 1)
      else if t.getD i 0 = 0x2C ∨ t.getD i 0 = 0x2E then
        if i + 1 < t.length ∧ isDigitCU (t.getD (i+1) 0) = true then numLoop t fuel (i + 2)
        else i
      else i
    else i

/-- `_getNumberLength`. -/
def numLen (t : List Nat) (i : Nat) : Nat :=
  if isDigitCU (t.getD i 0) then numLoop t t.length (i + 1) - i else 0

/-- `_isAcronymStart`: a Khmer base-range cluster at `i` immediately followed
by a `.`. -/
def isAcronymStart (t : List Nat) (i : Nat) : Bool :=
  decide (i + 1 < t.length) &&
  decide (0x1780 ≤ t.getD i 0 ∧ t.getD i 0 ≤ 0x17B3) &&
  (clusterLen t i != 0) &&
  (decide (i + clusterLen t i < t.length) && (t.getD (i + clusterLen t i) 0 == 0x2E))

/-- The scan of `_getAcronymLength`: chained cluster+`.` groups; returns the
end position (with the same always-sufficient iteration budget). -/
def acrLoop (t : List Nat) : Nat → Nat → Nat
  | 0, i => i
  | fuel + 1, i =>
    if i < t.length then
      if 0x1780 ≤ t.getD i 0 ∧ t.getD i 0 ≤ 0x17B3 then
        if 0 < clusterLen t i then
          if i + clusterLen t i < t.length ∧ t.getD (i + clusterLen t i) 0 = 0x2E then
            acrLoop t fuel (i + clusterLen t i + 1)
          else i
        else i
      else i
    else i

/-- `_getAcronymLength`. -/
def acrLen (t : List Nat) (i : Nat) : Nat := acrLoop t t.length i - i

/-- The forced-repair trap of the DP loop: previous code unit is a coeng, or
the current one is a dependent vowel. -/
def trapped (t : List Nat) (i : Nat) : Bool :=
  (decide (0 < i) && (t.getD (i-1) 0 == 0x17D2)) ||
  decide (0x17B6 ≤ t.getD i 0 ∧ t.getD i 0 ≤ 0x17C5)

/-- The unknown-fallback step cost for a Khmer cluster at `i`. -/
def unkStepCost (S : Seg) (t : List Nat) (i : Nat) : Rat :=
  S.unknownCost + (if clusterLen t i = 1 ∧ isValidSingleBase (t.getD i 0) = false then 10 else 0)

/-- One DP cell: `[cost, prev]`, with `none` for `Infinity` / `-1`. -/
structure Entry where
  cost : Option Rat
  prev : Option Nat
deriving DecidableEq

/-- `dp[0] = [0, -1]`, all other cells `[Infinity, -1]`. -/
def dpInit : Nat → Entry := fun k => if k = 0 then ⟨some 0, none⟩ else ⟨none, none⟩

/-- Strict comparison against a possibly-infinite cell cost. -/
def ltCost (c : Rat) : Option Rat → Bool
  | none => true
  | some c' => decide (c < c')

/-- `if (newCost < dp[j][0]) dp[j] = [newCost, i]`. -/
def relax (dp : Nat → Entry) (j : Nat) (c : Rat) (p : Nat) : Nat → Entry :=
  if ltCost c (dp j).cost then fun k => if k = j then ⟨some c, some p⟩ else dp k
  else dp

/-- Relax `dp[j]` with `dp[i].cost + s` (reading `dp[i]` as the source does). -/
def relaxFrom (dp : Nat → Entry) (i j : Nat) (s : Rat) : Nat → Entry :=
  match (dp i).cost with
  | none => dp
  | some ci => relax dp j (ci + s) i

/-- The dictionary-match inner loop:
`for (j = i+1; j <= min(n, i+maxWordLength); j++)` (the iteration budget
`maxWordLength + 1` given at the call site is always sufficient). -/
def dictLoop (S : Seg) (t : List Nat) (i : Nat) : Nat → (Nat → Entry) → Nat → (Nat → Entry)
  | 0, dp, _ => dp
  | fuel + 1, dp, j =>
    if j ≤ min t.length (i + S.maxWordLength) then
      dictLoop S t i fuel
        (if S.words.contains (sliceL t i j) then
          relaxFrom dp i j (getWordCost S (sliceL t i j)) else dp)
        (j + 1)
    else dp

/-- The forced-repair proposal (`dp[i] + unknownCost + 50` to `i+1`). -/
def repairOp (S : Seg) (t : List Nat) (dp : Nat → Entry) (i : Nat) : Nat → Entry :=
  if i + 1 ≤ t.length then relaxFrom dp i (i + 1) (S.unknownCost + 50) else dp

/-- Blocks "1. Number Grouping" / "2. Separators" (an `else if` chain). -/
def numSepOp (S : Seg) (t : List Nat) (dp : Nat → Entry) (i : Nat) : Nat → Entry :=
  if isDigitCU (t.getD i 0) then relaxFrom dp i (i + numLen t i) 1
  else if isSepCU S (t.getD i 0) then relaxFrom dp i (i + 1) (1/10)
  else dp

/-- Block "3. Acronyms". -/
def acrOp (S : Seg) (t : List Nat) (dp : Nat → Entry) (i : Nat) : Nat → Entry :=
  if isAcronymStart t i then relaxFrom dp i (i + acrLen t i) S.defaultCost else dp

/-- Block "4. Unknown Fallback". -/
def unkOp (S : Seg) (t : List Nat) (dp : Nat → Entry) (i : Nat) : Nat → Entry :=
  if isKhmerCU (t.getD i 0) then
    if i + clusterLen t i ≤ t.length then
      relaxFrom dp i (i + clusterLen t i) (unkStepCost S t i)
    else dp
  else
    if i + 1 ≤ t.length then relaxFrom dp i (i + 1) S.unknownCost else dp

/-- One iteration of the DP loop body at position `i`: skip unreached cells;
at trapped positions propose only the forced repair; otherwise run the
digit/separator, acronym, dictionary and unknown-fallback proposals in order. -/
def dpStep (S : Seg) (t : List Nat) (dp : Nat → Entry) (i : Nat) : Nat → Entry :=
  match (dp i).cost with
  | none => dp
  | some _ =>
    if trapped t i then repairOp S t dp i
    else unkOp S t
      (dictLoop S t i (S.maxWordLength + 1) (acrOp S t (numSepOp S t dp i) i) (i + 1)) i

/-- The DP table after the loop has processed positions `0 .. m-1`. -/
def dpUpTo (S : Seg) (t : List Nat) : Nat → (Nat → Entry)
  | 0 => dpInit
  | m + 1 => dpStep S t (dpUpTo S t m) m

/-- The DP table after the whole loop (`for i = 0; i < n; i++`). -/
def runDP (S : Seg) (t : List Nat) : Nat → Entry := dpUpTo S t t.length

/-- The backtrack loop, with an explicit iteration budget (the source's
`while (curr > 0)` relies on `prev < curr`, which `runDP` guarantees;
a budget of `n` therefore suffices).  Segments are collected in push order. -/
def backtrackAux (dp : Nat → Entry) (t : List Nat) : Nat → Nat → List (List Nat)
  | 0, _ => []
  | _, 0 => []
  | fuel + 1, curr + 1 =>
    match (dp (curr + 1)).prev with
    | none => sliceL t curr (curr + 1) :: backtrackAux dp t fuel curr
    | some p => sliceL t p (curr + 1) :: backtrackAux dp t fuel p

/-! ### Normalizer (`KhmerNormalizer`) -/

/-- The character classes of `_get_char_type`, tested in source order. -/
inductive CType where
  | base | coeng | register | vowel | sign | other
deriving DecidableEq

/-- `_get_char_type`. -/
def charType (c : Nat) : CType :=
  if (0x1780 ≤ c ∧ c ≤ 0x17A2) ∨ (0x17A3 ≤ c ∧ c ≤ 0x17B3) then .base
  else if c = 0x17D2 then .coeng
  else if c = 0x17C9 ∨ c = 0x17CA then .register
  else if 0x17B6 ≤ c ∧ c ≤ 0x17C5 then .vowel
  else if (0x17C6 ≤ c ∧ c ≤ 0x17D3) ∨ c = 0x17DD then .sign
  else .other

/-- The modifier priority of `_sort_cluster`, scaled by 2 to stay in `Nat`
(source: non-Ro subscript 1, stray coeng 1.5, Ro subscript 2, register 2.5,
dependent vowel 3, sign 4, other 5). -/
def partPriority (p : List Nat) : Nat :=
  match p with
  | c :: _ =>
    if c = 0x17D2 then
      if p.length = 2 then (if p.getD 1 0 = 0x179A then 4 else 2) else 3
    else if c = 0x17C9 ∨ c = 0x17CA then 5
    else if 0x17B6 ≤ c ∧ c ≤ 0x17C5 then 6
    else if (0x17C6 ≤ c ∧ c ≤ 0x17D3) ∨ c = 0x17DD then 8
    else 10
  | [] => 10

/-- Stable insertion of a modifier into an already (stably) sorted list:
`x` goes before the first element of not-smaller priority.  A stable sort by a
consistent comparator has a unique result, so this models the ECMAScript
`Array.prototype.sort` call of `_sort_cluster`. -/
def insertMod (x : List Nat) : List (List Nat) → List (List Nat)
  | [] => [x]
  | y :: ys => if partPriority y < partPriority x then y :: insertMod x ys else x :: y :: ys

/-- Stable sort of the modifier list by `partPriority`. -/
def sortMods : List (List Nat) → List (List Nat)
  | [] => []
  | x :: xs => insertMod x (sortMods xs)

/-- `_sort_cluster`: base part first, modifiers stably sorted by priority. -/
def sortCluster (parts : List (List Nat)) : List Nat :=
  match parts with
  | [] => []
  | base :: mods => base ++ (sortMods mods).flatten

/-- Flush the current cluster (emit its sorted serialization if non-empty). -/
def flushC (cur : List (List Nat)) : List (List Nat) :=
  if cur.isEmpty then [] else [sortCluster cur]

/-- The cluster pass of `normalize` (step 2): linear scan with a
current-cluster buffer, producing the list of emitted items. -/
def normLoop : List Nat → List (List Nat) → List (List Nat)
  | [], cur => flushC cur
  | c :: rest, cur =>
    if charType c = .base then flushC cur ++ normLoop rest [[c]]
    else if charType c = .coeng then
      (match rest with
       | d :: rest' =>
         if charType d = .base then normLoop rest' (cur ++ [[c, d]])
         else normLoop (d :: rest') (cur ++ [[c]])
       | [] => flushC (cur ++ [[c]]))
    else if charType c = .register ∨ charType c = .vowel ∨ charType c = .sign then
      (if cur.isEmpty then [c] :: normLoop rest cur else normLoop rest (cur ++ [[c]]))
    else flushC cur ++ [c] :: normLoop rest []

/-- JavaScript `String.prototype.replace` with a *string* pattern: replaces
only the first occurrence. -/
def replaceFirst (pat rep : List Nat) : List Nat → List Nat
  | [] => []
  | c :: rest =>
    if pat.isPrefixOf (c :: rest) then rep ++ (c :: rest).drop pat.length
    else c :: replaceFirst pat rep rest

/-- `KhmerNormalizer.normalize`: strip zero-widths, fuse split vowels
(first occurrence each, as `replace` with a string pattern does), cluster pass. -/
def normalize (x : List Nat) : List Nat :=
  let t0 := stripZW x
  let t1 := replaceFirst [0x17C1, 0x17B8] [0x17BE] t0
  let t2 := replaceFirst [0x17C1, 0x17B6] [0x17C4] t1
  (normLoop t2 []).flatten

/-! ### Rule engine (`RuleBasedEngine`) -/

/-- The engine after construction: the two segmenter callbacks, the abstract
regex test, and the compiled rule list. -/
structure Engine where
  checkInvalid : List Nat → Bool
  isSep : List Nat → Bool
  regexTest : List Nat → List Nat → Bool
  rules : List Rule

/-- Stable insertion for the descending-priority sort of `_compileRules`. -/
def insertRule (r : Rule) : List Rule → List Rule
  | [] => [r]
  | x :: xs => if r.priority < x.priority then x :: insertRule r xs else r :: x :: xs

/-- Stable sort of the rule list by priority, descending
(`rules.sort((a, b) => (b.priority || 0) - (a.priority || 0))`). -/
def sortRules : List Rule → List Rule
  | [] => []
  | x :: xs => insertRule x (sortRules xs)

/-- `_compileRules`: sort by priority descending; a `regex` rule whose pattern
fails to compile is skipped, every other rule is pushed unchanged. -/
def compileRules (regexOk : List Nat → Bool) (rules : List Rule) : List Rule :=
  (sortRules rules).filter (fun r => !(r.ttype == "regex") || regexOk r.tvalue)

/-- ASCII code units of a Lean string (for the rule-file keyword values). -/
def ofAscii (s : String) : List Nat := s.toList.map Char.toNat

/-- Trigger matching (step 1 of the rule loop). -/
def matchTrigger (eng : Engine) (seg : List Nat) (r : Rule) : Bool :=
  if r.ttype == "exact_match" then seg == r.tvalue
  else if r.ttype == "regex" then eng.regexTest r.tvalue seg
  else if r.ttype == "complexity_check" then
    (r.tvalue == ofAscii "is_invalid_single") && eng.checkInvalid seg
  else false

/-- JavaScript truthiness of the optional `check` / `value` fields. -/
def truthyStr : Option String → Bool
  | some s => s ≠ ""
  | none => false

def truthyVal : Option Bool → Bool
  | some b => b
  | none => false

/-- One condition check (step 2 of the rule loop). -/
def checkPass (eng : Engine) (segs : List (List Nat)) (i : Nat) (ch : Check) : Bool :=
  let target : Option (List Nat) :=
    if ch.target == "prev" then (if 0 < i then some (segs.getD (i-1) []) else none)
    else if ch.target == "next" then
      (if i + 1 < segs.length then some (segs.getD (i+1) []) else none)
    else if ch.target == "context" || ch.target == "current" then some (segs.getD i [])
    else none
  match target with
  | none => if ch.mustExist then false else !(truthyStr ch.ccheck || truthyVal ch.cvalue)
  | some tseg =>
    if ch.ccheck == some "is_separator" then
      (match ch.cvalue with
       | some b => eng.isSep tseg == b
       | none => false)
    else if ch.ccheck == some "is_isolated" then
      let prevSep := if 0 < i then eng.isSep (segs.getD (i-1) []) else true
      let nextSep := if i + 1 < segs.length then eng.isSep (segs.getD (i+1) []) else true
      (match ch.cvalue with
       | some b => (prevSep && nextSep) == b
       | none => false)
    else true

/-- All checks must pass (an empty check list passes). -/
def checksPass (eng : Engine) (segs : List (List Nat)) (i : Nat) (r : Rule) : Bool :=
  r.checks.all (checkPass eng segs i)

/-- The outcome of the first firing rule at the current position. -/
inductive FireKind where
  | mergeNext | mergePrev | keep
deriving DecidableEq

/-- Whether an action can be applied at index `i` (`merge_next` needs a right
neighbour, `merge_prev` a left one, `keep` always applies, anything else never). -/
def applicAction (action : String) (segs : List (List Nat)) (i : Nat) : Option FireKind :=
  if action == "merge_next" then (if i + 1 < segs.length then some .mergeNext else none)
  else if action == "merge_prev" then (if 0 < i then some .mergePrev else none)
  else if action == "keep" then some .keep
  else none

/-- Scan the compiled rules in order; the first rule whose trigger matches,
whose checks pass and whose action applies determines the outcome.  A matching
rule with an inapplicable action does not stop the scan (the source `for` loop
falls through to the next rule). -/
def findFire (eng : Engine) (segs : List (List Nat)) (i : Nat) : List Rule → Option FireKind
  | [] => none
  | r :: rs =>
    if matchTrigger eng (segs.getD i []) r && checksPass eng segs i r then
      match applicAction r.action segs i with
      | some k => some k
      | none => findFire eng segs i rs
    else findFire eng segs i rs

/-- Merge the segments at positions `j` and `j+1` into one. -/
def mergeAt (segs : List (List Nat)) (j : Nat) : List (List Nat) :=
  segs.take j ++ [segs.getD j [] ++ segs.getD (j+1) []] ++ segs.drop (j+2)

/-- `applyRules` (the index-walking rewriting loop), from index `i`. -/
def applyRulesAux (eng : Engine) (segs : List (List Nat)) (i : Nat) : List (List Nat) :=
  if h : i < segs.length then
    match hf : findFire eng segs i eng.rules with
    | some .mergeNext => applyRulesAux eng (mergeAt segs i) i
    | some .mergePrev => applyRulesAux eng (mergeAt segs (i-1)) (i-1)
    | some .keep => applyRulesAux eng segs (i+1)
    | none => applyRulesAux eng segs (i+1)
  else segs
termination_by (segs.length, segs.length - i)
decreasing_by
  · have h2 : i + 1 < segs.length := by
      revert hf
      generalize eng.rules = rs
      induction rs with
      | nil => intro hf; simp [findFire] at hf
      | cons r rs ih =>
        intro hf
        by_cases hm : (matchTrigger eng (segs.getD i []) r && checksPass eng segs i r) = true
        · rw [findFire, if_pos hm] at hf
          cases ha : applicAction r.action segs i with
          | none => rw [ha] at hf; exact ih hf
          | some k =>
            rw [ha] at hf
            cases hf
            unfold applicAction at ha
            split at ha
            · split at ha
              · assumption
              · cases ha
            · split at ha
              · split at ha <;> cases ha
              · split at ha <;> cases ha
        · rw [findFire, if_neg hm] at hf; exact ih hf
    have h3 : (mergeAt segs i).length = segs.length - 1 := by
      simp only [mergeAt, List.length_append, List.length_take, List.length_drop,
        List.length_cons, List.length_nil]
      omega
    exact Prod.Lex.left _ _ (by omega)
  · have h2 : 0 < i := by
      revert hf
      generalize eng.rules = rs
      induction rs with
      | nil => intro hf; simp [findFire] at hf
      | cons r rs ih =>
        intro hf
        by_cases hm : (matchTrigger eng (segs.getD i []) r && checksPass eng segs i r) = true
        · rw [findFire, if_pos hm] at hf
          cases ha : applicAction r.action segs i with
          | none => rw [ha] at hf; exact ih hf
          | some k =>
            rw [ha] at hf
            cases hf
            unfold applicAction at ha
            split at ha
            · split at ha <;> cases ha
            · split at ha
              · split at ha
                · assumption
                · cases ha
              · split at ha <;> cases ha
        · rw [findFire, if_neg hm] at hf; exact ih hf
    have h3 : (mergeAt segs (i - 1)).length = segs.length - 1 := by
      simp only [mergeAt, List.length_append, List.length_take, List.length_drop,
        List.length_cons, List.length_nil]
      omega
    exact Prod.Lex.left _ _ (by omega)
  · exact Prod.Lex.right _ (by omega)
  · exact Prod.Lex.right _ (by omega)

/-- `RuleBasedEngine.applyRules`. -/
def applyRules (eng : Engine) (segs : List (List Nat)) : List (List Nat) :=
  applyRulesAux eng segs 0

/-! ### Segmenter predicates, grouper and `segment` -/

/-- `_isInvalidSingle`. -/
def isInvalidSingle (S : Seg) (w : List Nat) : Bool :=
  (w.length == 1) && isKhmerCU (w.headD 0) && !isValidSingleBase (w.headD 0) &&
  !isDigitCU (w.headD 0) && !isSepStr S w && !S.words.contains w

/-- The engine the segmenter constructor builds: the two bound callbacks and
the compiled rule list. -/
def segEngine (S : Seg) : Engine :=
  ⟨isInvalidSingle S, isSepStr S, S.regexTest, compileRules S.regexOk S.rulesData⟩

/-- The known-token test of the unknown grouper, in source order:
digit first char, dictionary, single valid base, separator, acronym dot. -/
def grouperKnown (S : Seg) (seg : List Nat) : Bool :=
  isDigitCU (seg.headD 0) || S.words.contains seg ||
  ((seg.length == 1) && isValidSingleBase (seg.headD 0)) || isSepStr S seg ||
  (seg.contains 0x2E && decide (2 ≤ seg.length))

/-- Flush the unknown buffer (`finalSegments.push(unknownBuffer.join(""))`). -/
def flushBuf (buf : List (List Nat)) : List (List Nat) :=
  if buf.isEmpty then [] else [buf.flatten]

/-- The unknown grouper: coalesce adjacent unknown tokens, flushing the buffer
before a known token and whenever the Khmer/non-Khmer class of the first
character changes. -/
def grouperLoop (S : Seg) : List (List Nat) → List (List Nat) → List (List Nat)
  | [], buf => flushBuf buf
  | seg :: rest, buf =>
    if grouperKnown S seg then flushBuf buf ++ seg :: grouperLoop S rest []
    else
      if !buf.isEmpty &&
          (isKhmerCU ((buf.getLastD []).headD 0) != isKhmerCU (seg.headD 0)) then
        flushBuf buf ++ grouperLoop S rest [seg]
      else grouperLoop S rest (buf ++ [seg])

/-- `KhmerSegmenter.segment`: normalize, DP, backtrack (reversing the pushed
segments); then, unless post-processing is disabled, rules and grouper. -/
def segment (S : Seg) (x : List Nat) (disable : Bool) : List (List Nat) :=
  let t := normalize x
  if t.length = 0 then [] else
  let raw := (backtrackAux (runDP S t) t t.length t.length).reverse
  if disable then raw
  else grouperLoop S (applyRulesAux (segEngine S) raw 0) []

/-- `KhmerSegmenter.isUnknown` (the UI helper). -/
def isUnknown (S : Seg) (w : List Nat) : Bool :=
  if w.isEmpty then false
  else if S.words.contains w then false
  else if isDigitCU (w.headD 0) then false
  else if isSepStr S w then false
  else if (w.length == 1) && isValidSingleBase (w.headD 0) then false
  else if w.contains 0x2E && decide (2 ≤ w.length) then false
  else true

/-! ### Variant generator and frequency loader -/

/-- Global (`/g`) replacement of the 2-code-unit pattern `[a, b]` by `[a', b']`,
left to right, non-overlapping. -/
def replaceAll2 (a b a' b' : Nat) : List Nat → List Nat
  | x :: y :: rest =>
    if x = a ∧ y = b then a' :: b' :: replaceAll2 a b a' b' rest
    else x :: replaceAll2 a b a' b' (y :: rest)
  | l => l

/-- Whether `[a, b]` occurs in `t` (JavaScript `includes`). -/
def hasPair (a b : Nat) : List Nat → Bool
  | x :: y :: rest => (x == a && y == b) || hasPair a b (y :: rest)
  | _ => false

/-- The coeng-swap pattern `(្រ)(្[^រ])` at one position. -/
def p1test (a b c d : Nat) : Bool :=
  a == 0x17D2 && b == 0x179A && c == 0x17D2 && !(d == 0x179A)

/-- The coeng-swap pattern `(្[^រ])(្រ)` at one position. -/
def p2test (a b c d : Nat) : Bool :=
  a == 0x17D2 && !(b == 0x179A) && c == 0x17D2 && d == 0x179A

/-- Global `'$2$1'` replacement for a 4-code-unit two-group pattern. -/
def swapReplaceAll (test4 : Nat → Nat → Nat → Nat → Bool) : List Nat → List Nat
  | a :: b :: c :: d :: rest =>
    if test4 a b c d then c :: d :: a :: b :: swapReplaceAll test4 rest
    else a :: swapReplaceAll test4 (b :: c :: d :: rest)
  | l => l

/-- Scan a suffix for the first 4-code-unit match, reporting its absolute
position (accumulated in `pos`). -/
def findScan (test4 : Nat → Nat → Nat → Nat → Bool) : List Nat → Nat → Option Nat
  | a :: b :: c :: d :: rest, pos =>
    if test4 a b c d then some pos else findScan test4 (b :: c :: d :: rest) (pos + 1)
  | _, _ => none

/-- Position of the first 4-code-unit match at or after `j` (for the stateful
`lastIndex` search of `RegExp.prototype.test` on a `/g` regex). -/
def findFrom (test4 : Nat → Nat → Nat → Nat → Bool) (t : List Nat) (j : Nat) : Option Nat :=
  findScan test4 (t.drop j) j

/-- `RegExp.prototype.test` on a `/g` regex: search from `lastIndex`; on a hit
set `lastIndex` past the match, on a miss reset it to 0. -/
def gTest (test4 : Nat → Nat → Nat → Nat → Bool) (t : List Nat) (li : Nat) : Bool × Nat :=
  match findFrom test4 t li with
  | some j => (true, j + 4)
  | none => (false, 0)

/-- Insertion-ordered set add (JavaScript `Set.prototype.add`). -/
def addSet (l : List (List Nat)) (x : List Nat) : List (List Nat) :=
  if l.contains x then l else l ++ [x]

/-- The `for (const w of baseSet)` loop of `_generateVariants`.  Every
`test` on the two `/g` regexes starts at `lastIndex = 0`: a failed `test`
resets `lastIndex` to 0, and a successful one is immediately followed by
`w.replace(p, ...)`, which resets the global regex's `lastIndex` to 0 too. -/
def varLoop : List (List Nat) → List (List Nat) → List (List Nat)
  | [], acc => acc
  | w :: ws, acc =>
    let acc1 := if (gTest p1test w 0).1 then addSet acc (swapReplaceAll p1test w) else acc
    let acc2 := if (gTest p2test w 0).1 then addSet acc1 (swapReplaceAll p2test w) else acc1
    varLoop ws acc2

/-- `_generateVariants`: the coeng-ta/coeng-da swaps, then the coeng-Ro
reorderings over `{word} ∪ variants`. -/
def generateVariants (word : List Nat) : List (List Nat) :=
  let vs1 := if hasPair 0x17D2 0x178F word then
      addSet [] (replaceAll2 0x17D2 0x178F 0x17D2 0x178A word) else []
  let vs2 := if hasPair 0x17D2 0x178A word then
      addSet vs1 (replaceAll2 0x17D2 0x178A 0x17D2 0x178F word) else vs1
  let baseSet := vs2.foldl addSet (addSet [] word)
  varLoop baseSet vs2

/-- Overwrite-or-append update of an association list (JavaScript object
assignment; keys stay in insertion order). -/
def setKey : List (List Nat × Rat) → List Nat → Rat → List (List Nat × Rat)
  | [], k, v => [(k, v)]
  | (k', v') :: rest, k, v =>
    if k' == k then (k, v) :: rest else (k', v') :: setKey rest k v

/-- The entry loop of `_loadFrequencies`: effective counts (floor 5), variant
entries inheriting the effective count when absent, and the running total
(which is increased once per *input* entry). -/
def freqLoop : List (List Nat × Rat) → List (List Nat × Rat) → Rat →
    List (List Nat × Rat) × Rat
  | [], ec, tot => (ec, tot)
  | (w, c) :: rest, ec, tot =>
    let w' := stripZW w
    let eff := max c 5
    let ec1 := setKey ec w' eff
    let ec2 := (generateVariants w').foldl
      (fun m v => if (m.lookup v).isSome then m else m ++ [(v, eff)]) ec1
    freqLoop rest ec2 (tot + eff)

/-- The cost-table loop of `_loadFrequencies`. -/
def wcLoop (log10 : Rat → Rat) (tot : Rat) : List (List Nat × Rat) → List (List Nat × Rat)
  | [] => []
  | (w, c) :: rest =>
    (if 0 < c / tot then [(w, -(log10 (c / tot)))] else []) ++ wcLoop log10 tot rest

/-- The result of `_loadFrequencies`. -/
structure FreqResult where
  effectiveCounts : List (List Nat × Rat)
  totalTokens : Rat
  defaultCost : Rat
  unknownCost : Rat
  wordCosts : List (List Nat × Rat)
deriving DecidableEq

/-- `_loadFrequencies`, with `Math.log10` abstract.  When the total is not
positive the default costs (10, 20) and an empty cost table are kept. -/
def loadFrequencies (log10 : Rat → Rat) (data : List (List Nat × Rat)) : FreqResult :=
  let r := freqLoop data [] 0
  if 0 < r.2 then
    ⟨r.1, r.2, -(log10 (5 / r.2)), -(log10 (5 / r.2)) + 5, wcLoop log10 r.2 r.1⟩
  else ⟨r.1, r.2, 10, 20, []⟩

/-! ### The transition table and covers -/

/-- The transitions the DP loop proposes from position `i` (the transition
table of the segmenter): at a trapped position only the forced repair;
otherwise digit run, separator (when not a digit), acronym chain, dictionary
word, and the unknown fallback. -/
inductive Trans (S : Seg) (t : List Nat) : Nat → Nat → Rat → Prop where
  | repair (i : Nat) (hi : i < t.length) (ht : trapped t i = true) :
      Trans S t i (i + 1) (S.unknownCost + 50)
  | digit (i : Nat) (hi : i < t.length) (ht : trapped t i = false)
      (hd : isDigitCU (t.getD i 0) = true) : Trans S t i (i + numLen t i) 1
  | sep (i : Nat) (hi : i < t.length) (ht : trapped t i = false)
      (hd : isDigitCU (t.getD i 0) = false) (hs : isSepCU S (t.getD i 0) = true) :
      Trans S t i (i + 1) (1/10)
  | acr (i : Nat) (hi : i < t.length) (ht : trapped t i = false)
      (ha : isAcronymStart t i = true) : Trans S t i (i + acrLen t i) S.defaultCost
  | dict (i j : Nat) (hi : i < t.length) (ht : trapped t i = false) (hj1 : i + 1 ≤ j)
      (hj2 : j ≤ min t.length (i + S.maxWordLength))
      (hw : S.words.contains (sliceL t i j) = true) :
      Trans S t i j (getWordCost S (sliceL t i j))
  | unkKh (i : Nat) (hi : i < t.length) (ht : trapped t i = false)
      (hk : isKhmerCU (t.getD i 0) = true) (hn : i + clusterLen t i ≤ t.length) :
      Trans S t i (i + clusterLen t i) (unkStepCost S t i)
  | unkOther (i : Nat) (hi : i < t.length) (ht : trapped t i = false)
      (hk : isKhmerCU (t.getD i 0) = false) (hn : i + 1 ≤ t.length) :
      Trans S t i (i + 1) S.unknownCost

/-- Covers of the prefix `text[0..k)` composable from the transition table,
with their accumulated cost. -/
inductive Covers (S : Seg) (t : List Nat) : Nat → Rat → Prop where
  | nil : Covers S t 0 0
  | step {i : Nat} {c : Rat} {j : Nat} {s : Rat} (h1 : Covers S t i c)
      (h2 : Trans S t i j s) : Covers S t j (c + s)

/-- Order on possibly-infinite costs (`none` is `Infinity`). -/
def leCost : Option Rat → Option Rat → Prop
  | _, none => True
  | none, some _ => False
  | some a, some b => a ≤ b

/-- `applyRules` with an explicit recursion budget, to state termination:
`none` means the budget was exhausted. -/
def applyRulesFuel (eng : Engine) : Nat → List (List Nat) → Nat → Option (List (List Nat))
  | 0, _, _ => none
  | fuel + 1, segs, i =>
    if i < segs.length then
      match findFire eng segs i eng.rules with
      | some .mergeNext => applyRulesFuel eng fuel (mergeAt segs i) i
      | some .mergePrev => applyRulesFuel eng fuel (mergeAt segs (i-1)) (i-1)
      | some .keep => applyRulesFuel eng fuel segs (i+1)
      | none => applyRulesFuel eng fuel segs (i+1)
    else some segs

/-- The known-token conditions exactly as the specification lists them for
`isUnknown`: in the dictionary, first character a digit, a single separator,
a single valid base, or contains `.` with length at least 2.  (Spec-side
definition, to compare with the source's `isUnknown`.) -/
def specKnownCond (S : Seg) (w : List Nat) : Bool :=
  S.words.contains w ||
  (match w with | c :: _ => isDigitCU c | [] => false) ||
  isSepStr S w ||
  ((w.length == 1) && isValidSingleBase (w.headD 0)) ||
  (w.contains 0x2E && decide (2 ≤ w.length))

/-- Sum of the effective counts `max(count, 5)` over the *input* frequency
entries (spec-side definition for the amended C6). -/
def specSumEff (data : List (List Nat × Rat)) : Rat :=
  (data.map (fun p => max p.2 5)).sum

/-- Sum of the stored effective counts over the entries of the effective-count
table (spec-side definition, for the original C6 reading). -/
def specTableSum (ec : List (List Nat × Rat)) : Rat := (ec.map (fun p => p.2)).sum

/-- A character the normalizer passes through untouched: a Khmer base or a
non-Khmer-combining character, and not a zero-width. -/
def plainChar (c : Nat) : Bool :=
  (charType c == CType.base || charType c == CType.other) && !isZW c

/-- A concrete segmenter (empty dictionary, no rules) used to instantiate
hypotheses of the general theorems at concrete inputs. -/
def S0 : Seg := ⟨[], [], 10, 20, 0, fun _ => false, fun _ => true, fun _ _ => false, []⟩

/-- A concrete rule with a trigger type outside the documented set. -/
def badRule : Rule := ⟨0, "fuzzy_match", [], [], "keep"⟩

/-! ### Bounds for the scanning loops -/

theorem findFire_mergeNext {eng segs i} : ∀ {rs}, findFire eng segs i rs = some .mergeNext →
    i + 1 < segs.length := by
  intro rs
  induction rs with
  | nil => intro h; simp [findFire] at h
  | cons r rs ih =>
    intro h
    by_cases hm : (matchTrigger eng (segs.getD i []) r && checksPass eng segs i r) = true
    · rw [findFire, if_pos hm] at h
      cases ha : applicAction r.action segs i with
      | none => rw [ha] at h; exact ih h
      | some k =>
        rw [ha] at h
        cases h
        unfold applicAction at ha
        split at ha
        · split at ha
          · assumption
          · cases ha
        · split at ha
          · split at ha <;> cases ha
          · split at ha <;> cases ha
    · rw [findFire, if_neg hm] at h; exact ih h

theorem findFire_mergePrev {eng segs i} : ∀ {rs}, findFire eng segs i rs = some .mergePrev →
    0 < i := by
  intro rs
  induction rs with
  | nil => intro h; simp [findFire] at h
  | cons r rs ih =>
    intro h
    by_cases hm : (matchTrigger eng (segs.getD i []) r && checksPass eng segs i r) = true
    · rw [findFire, if_pos hm] at h
      cases ha : applicAction r.action segs i with
      | none => rw [ha] at h; exact ih h
      | some k =>
        rw [ha] at h
        cases h
        unfold applicAction at ha
        split at ha
        · split at ha <;> cases ha
        · split at ha
          · split at ha
            · assumption
            · cases ha
          · split at ha <;> cases ha
    · rw [findFire, if_neg hm] at h; exact ih h

theorem mergeAt_length {segs : List (List Nat)} {j : Nat} (h : j + 1 < segs.length) :
    (mergeAt segs j).length = segs.length - 1 := by
  simp only [mergeAt, List.length_append, List.length_take, List.length_drop,
    List.length_cons, List.length_nil]
  omega


theorem clusterLoop_ge (t : List Nat) : ∀ fuel i, i ≤ clusterLoop t fuel i := by
  intro fuel
  induction fuel with
  | zero => intro i; rw [clusterLoop]
  | succ fuel ih =>
    intro i
    rw [clusterLoop]
    split
    · split
      · split
        · have := ih (i + 2); omega
        · omega
      · split
        · have := ih (i + 1); omega
        · omega
    · omega

theorem clusterLoop_le (t : List Nat) : ∀ fuel i, i ≤ t.length →
    clusterLoop t fuel i ≤ t.length := by
  intro fuel
  induction fuel with
  | zero => intro i hi; rw [clusterLoop]; omega
  | succ fuel ih =>
    intro i hi
    rw [clusterLoop]
    split
    · rename_i h
      split
      · split
        · rename_i hs; exact ih (i + 2) (by omega)
        · omega
      · split
        · exact ih (i + 1) (by omega)
        · omega
    · omega

theorem clusterLen_pos (t : List Nat) (i : Nat) (hi : i < t.length) : 1 ≤ clusterLen t i := by
  rw [clusterLen, if_pos hi]
  split
  · have := clusterLoop_ge t t.length (i + 1); omega
  · omega

theorem clusterLen_add_le (t : List Nat) (i : Nat) (hi : i < t.length) :
    i + clusterLen t i ≤ t.length := by
  rw [clusterLen, if_pos hi]
  split
  · have h1 := clusterLoop_le t t.length (i + 1) (by omega)
    have h2 := clusterLoop_ge t t.length (i + 1)
    omega
  · omega

theorem numLoop_ge (t : List Nat) : ∀ fuel i, i ≤ numLoop t fuel i := by
  intro fuel
  induction fuel with
  | zero => intro i; rw [numLoop]
  | succ fuel ih =>
    intro i
    rw [numLoop]
    split
    · split
      · have := ih (i + 1); omega
      · split
        · split
          · have := ih (i + 2); omega
          · omega
        · omega
    · omega

theorem numLoop_le (t : List Nat) : ∀ fuel i, i ≤ t.length → numLoop t fuel i ≤ t.length := by
  intro fuel
  induction fuel with
  | zero => intro i hi; rw [numLoop]; omega
  | succ fuel ih =>
    intro i hi
    rw [numLoop]
    split
    · rename_i h
      split
      · exact ih (i + 1) (by omega)
      · split
        · split
          · rename_i hs; exact ih (i + 2) (by omega)
          · omega
        · omega
    · omega

theorem numLen_pos (t : List Nat) (i : Nat) (hd : isDigitCU (t.getD i 0) = true) :
    1 ≤ numLen t i := by
  rw [numLen, if_pos hd]
  have := numLoop_ge t t.length (i + 1)
  omega

theorem numLen_add_le (t : List Nat) (i : Nat) (hi : i < t.length) :
    i + numLen t i ≤ t.length := by
  rw [numLen]
  split
  · have h1 := numLoop_le t t.length (i + 1) (by omega)
    have h2 := numLoop_ge t t.length (i + 1)
    omega
  · omega

theorem acrLoop_ge (t : List Nat) : ∀ fuel i, i ≤ acrLoop t fuel i := by
  intro fuel
  induction fuel with
  | zero => intro i; rw [acrLoop]
  | succ fuel ih =>
    intro i
    rw [acrLoop]
    split
    · split
      · split
        · split
          · have := ih (i + clusterLen t i + 1); omega
          · omega
        · omega
      · omega
    · omega

theorem acrLoop_le (t : List Nat) : ∀ fuel i, i ≤ t.length → acrLoop t fuel i ≤ t.length := by
  intro fuel
  induction fuel with
  | zero => intro i hi; rw [acrLoop]; omega
  | succ fuel ih =>
    intro i hi
    rw [acrLoop]
    split
    · rename_i h
      split
      · split
        · split
          · rename_i hd; exact ih (i + clusterLen t i + 1) (by omega)
          · omega
        · omega
      · omega
    · omega

theorem acrLen_pos (t : List Nat) (i : Nat) (ha : isAcronymStart t i = true) :
    1 ≤ acrLen t i := by
  rw [isAcronymStart] at ha
  simp only [Bool.and_eq_true, decide_eq_true_eq, bne_iff_ne, beq_iff_eq] at ha
  obtain ⟨⟨⟨h1, h2⟩, h3⟩, h4, h5⟩ := ha
  have hi : i < t.length := by omega
  rw [acrLen]
  cases hfl : t.length with
  | zero => omega
  | succ f =>
    rw [acrLoop, if_pos (by omega), if_pos h2, if_pos (by omega), if_pos ⟨by omega, h5⟩]
    have := acrLoop_ge t f (i + clusterLen t i + 1)
    have hc : 0 < clusterLen t i := by omega
    omega

theorem acrLen_add_le (t : List Nat) (i : Nat) (hi : i < t.length) :
    i + acrLen t i ≤ t.length := by
  rw [acrLen]
  have h1 := acrLoop_le t t.length i (by omega)
  have h2 := acrLoop_ge t t.length i
  omega

theorem isDigitCU_zero : isDigitCU 0 = false := by decide

theorem isKhmerCU_zero : isKhmerCU 0 = false := by decide

theorem isKhmerCU_lt (t : List Nat) (i : Nat) (h : isKhmerCU (t.getD i 0) = true) :
    i < t.length := by
  by_contra hc
  rw [List.getD_eq_default] at h
  · rw [isKhmerCU_zero] at h; cases h
  · omega

theorem isDigitCU_lt (t : List Nat) (i : Nat) (h : isDigitCU (t.getD i 0) = true) :
    i < t.length := by
  by_contra hc
  rw [List.getD_eq_default] at h
  · rw [isDigitCU_zero] at h; cases h
  · omega

/-! ### DP relaxation lemmas -/

theorem leCost_refl (x : Option Rat) : leCost x x := by
  cases x <;> simp [leCost]

theorem leCost_trans {x y z : Option Rat} (h1 : leCost x y) (h2 : leCost y z) : leCost x z := by
  cases x <;> cases y <;> cases z <;> simp_all [leCost] <;> try exact le_trans h1 h2

theorem leCost_some_elim {x : Option Rat} {c : Rat} (h : leCost x (some c)) :
    ∃ d, x = some d ∧ d ≤ c := by
  cases x with
  | none => cases h
  | some d => exact ⟨d, rfl, h⟩

theorem leCost_mono_right {x : Option Rat} {a b : Rat} (h : leCost x (some a)) (hab : a ≤ b) :
    leCost x (some b) := by
  cases x with
  | none => cases h
  | some d => exact le_trans h hab

theorem relax_ne {dp : Nat → Entry} {j : Nat} {c : Rat} {p k : Nat} (h : k ≠ j) :
    relax dp j c p k = dp k := by
  rw [relax]
  split
  · simp [h]
  · rfl

theorem relax_mono (dp : Nat → Entry) (j : Nat) (c : Rat) (p k : Nat) :
    leCost ((relax dp j c p) k).cost (dp k).cost := by
  rw [relax]
  split
  · rename_i hlt
    by_cases hk : k = j
    · subst hk
      simp only [if_pos rfl]
      cases hc : (dp k).cost with
      | none => simp [leCost]
      | some c' =>
        rw [hc] at hlt
        simp only [ltCost, decide_eq_true_eq] at hlt
        exact le_of_lt hlt
    · simp only [if_neg hk]; exact leCost_refl _
  · exact leCost_refl _

theorem relax_at (dp : Nat → Entry) (j : Nat) (c : Rat) (p : Nat) :
    leCost ((relax dp j c p) j).cost (some c) := by
  rw [relax]
  split
  · simp [leCost]
  · rename_i hlt
    cases hc : (dp j).cost with
    | none => rw [hc] at hlt; simp [ltCost] at hlt
    | some c' =>
      rw [hc] at hlt
      simp only [ltCost, decide_eq_true_eq] at hlt
      simp only [hc, leCost]
      exact le_of_not_lt (by simpa using hlt)

theorem relax_isSome_at (dp : Nat → Entry) (j : Nat) (c : Rat) (p : Nat) :
    ((relax dp j c p) j).cost.isSome := by
  rw [relax]
  split
  · simp
  · rename_i hlt
    cases hc : (dp j).cost with
    | none => rw [hc] at hlt; simp [ltCost] at hlt
    | some c' => simp [hc]

theorem relax_prev {dp : Nat → Entry} {j : Nat} {c : Rat} {p k q : Nat}
    (h : ((relax dp j c p) k).prev = some q) :
    (dp k).prev = some q ∨ (k = j ∧ q = p) := by
  rw [relax] at h
  split at h
  · by_cases hk : k = j
    · subst hk; simp only [if_pos rfl] at h; cases h; exact Or.inr ⟨rfl, rfl⟩
    · simp only [if_neg hk] at h; exact Or.inl h
  · exact Or.inl h

theorem relaxFrom_ne {dp : Nat → Entry} {i j : Nat} {s : Rat} {k : Nat} (h : k ≠ j) :
    relaxFrom dp i j s k = dp k := by
  rw [relaxFrom]
  cases (dp i).cost with
  | none => rfl
  | some ci => exact relax_ne h

theorem relaxFrom_mono (dp : Nat → Entry) (i j : Nat) (s : Rat) (k : Nat) :
    leCost ((relaxFrom dp i j s) k).cost ((dp k).cost) := by
  rw [relaxFrom]
  cases (dp i).cost with
  | none => exact leCost_refl _
  | some ci => exact relax_mono dp j (ci + s) i k

theorem relaxFrom_at {dp : Nat → Entry} {i : Nat} {ci : Rat} (j : Nat) (s : Rat)
    (h : (dp i).cost = some ci) :
    leCost ((relaxFrom dp i j s) j).cost (some (ci + s)) := by
  rw [relaxFrom, h]
  exact relax_at dp j (ci + s) i

theorem relaxFrom_isSome_at {dp : Nat → Entry} {i : Nat} {ci : Rat} (j : Nat) (s : Rat)
    (h : (dp i).cost = some ci) :
    ((relaxFrom dp i j s) j).cost.isSome := by
  rw [relaxFrom, h]
  exact relax_isSome_at dp j (ci + s) i

theorem relaxFrom_prev {dp : Nat → Entry} {i j : Nat} {s : Rat} {k q : Nat}
    (h : ((relaxFrom dp i j s) k).prev = some q) :
    (dp k).prev = some q ∨ (k = j ∧ q = i) := by
  rw [relaxFrom] at h
  cases hci : (dp i).cost with
  | none => simp only [hci] at h; exact Or.inl h
  | some ci => simp only [hci] at h; exact relax_prev h

theorem relaxFrom_isSome_mono {dp : Nat → Entry} {i j : Nat} {s : Rat} {k : Nat}
    (h : (dp k).cost.isSome) : ((relaxFrom dp i j s) k).cost.isSome := by
  have hm := relaxFrom_mono dp i j s k
  cases hc : (dp k).cost with
  | none => rw [hc] at h; cases h
  | some c =>
    rw [hc] at hm
    obtain ⟨d, hd, _⟩ := leCost_some_elim hm
    simp [hd]

theorem isSome_of_leCost {x : Option Rat} {c : Rat} (h : leCost x (some c)) : x.isSome := by
  cases x with
  | none => cases h
  | some d => rfl

theorem dictLoop_ne (S : Seg) (t : List Nat) (i : Nat) :
    ∀ fuel dp j, ∀ k, k < j → (dictLoop S t i fuel dp j) k = dp k := by
  intro fuel
  induction fuel with
  | zero => intro dp j k hk; rw [dictLoop]
  | succ fuel ih =>
    intro dp j k hk
    rw [dictLoop]
    split
    · rw [ih _ (j + 1) k (by omega)]
      split
      · exact relaxFrom_ne (by omega)
      · rfl
    · rfl

theorem dictLoop_mono (S : Seg) (t : List Nat) (i : Nat) :
    ∀ fuel dp j, ∀ k, leCost ((dictLoop S t i fuel dp j) k).cost ((dp k).cost) := by
  intro fuel
  induction fuel with
  | zero => intro dp j k; rw [dictLoop]; exact leCost_refl _
  | succ fuel ih =>
    intro dp j k
    rw [dictLoop]
    split
    · refine leCost_trans (ih _ (j + 1) k) ?_
      split
      · exact relaxFrom_mono _ _ _ _ _
      · exact leCost_refl _
    · exact leCost_refl _

theorem dictLoop_prev (S : Seg) (t : List Nat) (i : Nat) :
    ∀ fuel dp j0, i < j0 → ∀ k q, ((dictLoop S t i fuel dp j0) k).prev = some q →
      (dp k).prev = some q ∨ (q = i ∧ i < k) := by
  intro fuel
  induction fuel with
  | zero => intro dp j0 hij k q hq; rw [dictLoop] at hq; exact Or.inl hq
  | succ fuel ih =>
    intro dp j0 hij k q hq
    rw [dictLoop] at hq
    revert hq
    split
    · intro hq
      rcases ih _ (j0 + 1) (by omega) k q hq with h1 | h1
      · revert h1
        split
        · intro h1
          rcases relaxFrom_prev h1 with h2 | ⟨h2, h3⟩
          · exact Or.inl h2
          · exact Or.inr ⟨h3, by omega⟩
        · intro h1; exact Or.inl h1
      · exact Or.inr h1
    · intro hq; exact Or.inl hq

theorem dictLoop_at (S : Seg) (t : List Nat) (i : Nat) :
    ∀ fuel dp j0, i < j0 → ∀ j ci, j0 ≤ j → j ≤ min t.length (i + S.maxWordLength) →
      j < j0 + fuel → S.words.contains (sliceL t i j) = true → (dp i).cost = some ci →
      leCost ((dictLoop S t i fuel dp j0) j).cost
        (some (ci + getWordCost S (sliceL t i j))) := by
  intro fuel
  induction fuel with
  | zero => intro dp j0 hij j ci hj0 hj hf hw hci; omega
  | succ fuel ih =>
    intro dp j0 hij j ci hj0 hj hf hw hci
    rw [dictLoop, if_pos (by omega)]
    by_cases hjj : j = j0
    · subst hjj
      rw [if_pos hw]
      refine leCost_trans (dictLoop_mono S t i fuel _ _ j) ?_
      exact relaxFrom_at j (getWordCost S (sliceL t i j)) hci
    · refine ih _ (j0 + 1) (by omega) j ci (by omega) hj (by omega) hw ?_
      split
      · rw [relaxFrom_ne (by omega), hci]
      · exact hci

/-! ### Lemmas about the four proposal blocks -/

theorem repairOp_ne {S t dp i k} (hk : k ≤ i) : repairOp S t dp i k = dp k := by
  rw [repairOp]
  split
  · exact relaxFrom_ne (by omega)
  · rfl

theorem repairOp_mono (S t dp i k) : leCost ((repairOp S t dp i) k).cost ((dp k).cost) := by
  rw [repairOp]
  split
  · exact relaxFrom_mono _ _ _ _ _
  · exact leCost_refl _

theorem repairOp_prev {S t dp i k q} (h : ((repairOp S t dp i) k).prev = some q) :
    (dp k).prev = some q ∨ (q = i ∧ i < k) := by
  rw [repairOp] at h
  revert h
  split
  · intro h
    rcases relaxFrom_prev h with h1 | ⟨h1, h2⟩
    · exact Or.inl h1
    · exact Or.inr ⟨h2, by omega⟩
  · intro h; exact Or.inl h

theorem numSepOp_ne {S t dp i k} (hk : k ≤ i) : numSepOp S t dp i k = dp k := by
  rw [numSepOp]
  split
  · rename_i hd
    have := numLen_pos t i hd
    exact relaxFrom_ne (by omega)
  · split
    · exact relaxFrom_ne (by omega)
    · rfl

theorem numSepOp_mono (S t dp i k) : leCost ((numSepOp S t dp i) k).cost ((dp k).cost) := by
  rw [numSepOp]
  split
  · exact relaxFrom_mono _ _ _ _ _
  · split
    · exact relaxFrom_mono _ _ _ _ _
    · exact leCost_refl _

theorem numSepOp_prev {S t dp i k q} (h : ((numSepOp S t dp i) k).prev = some q) :
    (dp k).prev = some q ∨ (q = i ∧ i < k) := by
  rw [numSepOp] at h
  revert h
  split
  · rename_i hd
    intro h
    rcases relaxFrom_prev h with h1 | ⟨h1, h2⟩
    · exact Or.inl h1
    · have := numLen_pos t i hd
      exact Or.inr ⟨h2, by omega⟩
  · split
    · intro h
      rcases relaxFrom_prev h with h1 | ⟨h1, h2⟩
      · exact Or.inl h1
      · exact Or.inr ⟨h2, by omega⟩
    · intro h; exact Or.inl h

theorem acrOp_ne {S t dp i k} (hk : k ≤ i) : acrOp S t dp i k = dp k := by
  rw [acrOp]
  split
  · rename_i ha
    have := acrLen_pos t i ha
    exact relaxFrom_ne (by omega)
  · rfl

theorem acrOp_mono (S t dp i k) : leCost ((acrOp S t dp i) k).cost ((dp k).cost) := by
  rw [acrOp]
  split
  · exact relaxFrom_mono _ _ _ _ _
  · exact leCost_refl _

theorem acrOp_prev {S t dp i k q} (h : ((acrOp S t dp i) k).prev = some q) :
    (dp k).prev = some q ∨ (q = i ∧ i < k) := by
  rw [acrOp] at h
  revert h
  split
  · rename_i ha
    intro h
    rcases relaxFrom_prev h with h1 | ⟨h1, h2⟩
    · exact Or.inl h1
    · have := acrLen_pos t i ha
      exact Or.inr ⟨h2, by omega⟩
  · intro h; exact Or.inl h

theorem unkOp_ne {S t dp i k} (hk : k ≤ i) : unkOp S t dp i k = dp k := by
  rw [unkOp]
  split
  · rename_i hkh
    have hi := isKhmerCU_lt t i hkh
    have := clusterLen_pos t i hi
    split
    · exact relaxFrom_ne (by omega)
    · rfl
  · split
    · exact relaxFrom_ne (by omega)
    · rfl

theorem unkOp_mono (S t dp i k) : leCost ((unkOp S t dp i) k).cost ((dp k).cost) := by
  rw [unkOp]
  split
  · split
    · exact relaxFrom_mono _ _ _ _ _
    · exact leCost_refl _
  · split
    · exact relaxFrom_mono _ _ _ _ _
    · exact leCost_refl _

theorem unkOp_prev {S t dp i k q} (h : ((unkOp S t dp i) k).prev = some q) :
    (dp k).prev = some q ∨ (q = i ∧ i < k) := by
  rw [unkOp] at h
  revert h
  split
  · rename_i hkh
    have hi := isKhmerCU_lt t i hkh
    have := clusterLen_pos t i hi
    split
    · intro h
      rcases relaxFrom_prev h with h1 | ⟨h1, h2⟩
      · exact Or.inl h1
      · exact Or.inr ⟨h2, by omega⟩
    · intro h; exact Or.inl h
  · split
    · intro h
      rcases relaxFrom_prev h with h1 | ⟨h1, h2⟩
      · exact Or.inl h1
      · exact Or.inr ⟨h2, by omega⟩
    · intro h; exact Or.inl h

/-! ### Lemmas about one full DP iteration -/

theorem dpStep_le_idx {S t dp i k} (hk : k ≤ i) : dpStep S t dp i k = dp k := by
  rw [dpStep]
  cases hci : (dp i).cost with
  | none => rfl
  | some ci =>
    simp only []
    split
    · exact repairOp_ne hk
    · rw [unkOp_ne hk, dictLoop_ne S t i _ _ _ k (by omega), acrOp_ne hk, numSepOp_ne hk]

theorem dpStep_mono (S t dp i k) : leCost ((dpStep S t dp i) k).cost ((dp k).cost) := by
  rw [dpStep]
  cases hci : (dp i).cost with
  | none => exact leCost_refl _
  | some ci =>
    simp only []
    split
    · exact repairOp_mono _ _ _ _ _
    · refine leCost_trans (unkOp_mono _ _ _ _ _) ?_
      refine leCost_trans (dictLoop_mono S t i _ _ _ k) ?_
      exact leCost_trans (acrOp_mono _ _ _ _ _) (numSepOp_mono _ _ _ _ _)

theorem dpStep_prev {S t dp i k q} (h : ((dpStep S t dp i) k).prev = some q) :
    (dp k).prev = some q ∨ (q = i ∧ i < k) := by
  rw [dpStep] at h
  revert h
  cases hci : (dp i).cost with
  | none => intro h; exact Or.inl h
  | some ci =>
    simp only []
    split
    · intro h; exact repairOp_prev h
    · intro h
      rcases unkOp_prev h with h1 | h1
      · rcases dictLoop_prev S t i _ _ _ (by omega) _ _ h1 with h2 | h2
        · rcases acrOp_prev h2 with h3 | h3
          · rcases numSepOp_prev h3 with h4 | h4
            · exact Or.inl h4
            · exact Or.inr h4
          · exact Or.inr h3
        · exact Or.inr h2
      · exact Or.inr h1

/-- Cells at or below the loop index are finalized: later iterations never
touch them. -/
theorem dpUpTo_stable (S : Seg) (t : List Nat) :
    ∀ m k, k ≤ m → dpUpTo S t m k = dpUpTo S t k k := by
  intro m
  induction m with
  | zero =>
    intro k hk
    have hk0 : k = 0 := by omega
    subst hk0
    rfl
  | succ m ih =>
    intro k hk
    by_cases hkm : k ≤ m
    · rw [dpUpTo, dpStep_le_idx hkm]
      exact ih k hkm
    · have : k = m + 1 := by omega
      subst this
      rfl

/-- The `prev` pointer of every reached cell points strictly backwards. -/
theorem dpUpTo_prev_lt (S : Seg) (t : List Nat) :
    ∀ m k q, ((dpUpTo S t m) k).prev = some q → q < k := by
  intro m
  induction m with
  | zero =>
    intro k q h
    rw [dpUpTo, dpInit] at h
    split at h <;> simp at h
  | succ m ih =>
    intro k q h
    rw [dpUpTo] at h
    rcases dpStep_prev h with h1 | ⟨h1, h2⟩
    · exact ih k q h1
    · omega

theorem runDP_prev_lt (S : Seg) (t : List Nat) (k q : Nat)
    (h : ((runDP S t) k).prev = some q) : q < k := by
  exact dpUpTo_prev_lt S t t.length k q h

theorem trans_bounds {S t i j c} (h : Trans S t i j c) : i < j ∧ j ≤ t.length := by
  cases h with
  | repair hi ht => omega
  | digit hi ht hd =>
    have h1 := numLen_pos t i hd
    have h2 := numLen_add_le t i hi
    omega
  | sep hi ht hd hs => omega
  | acr hi ht ha =>
    have h1 := acrLen_pos t i ha
    have h2 := acrLen_add_le t i hi
    omega
  | dict hi ht hj1 hj2 hw => omega
  | unkKh hi ht hk hn =>
    have h1 := clusterLen_pos t i hi
    omega
  | unkOther hi ht hk hn => omega

/-- After the iteration at `i`, every transition proposed from `i` has been
relaxed: the target cell is bounded by `dp[i].cost + stepCost`. -/
theorem dpStep_trans {S t dp i j s} {ci : Rat} (htr : Trans S t i j s)
    (hci : (dp i).cost = some ci) :
    leCost ((dpStep S t dp i) j).cost (some (ci + s)) := by
  rw [dpStep, hci]
  simp only []
  have hd1 : numSepOp S t dp i i = dp i := numSepOp_ne (le_refl i)
  have hd2 : acrOp S t (numSepOp S t dp i) i i = dp i := by rw [acrOp_ne (le_refl i), hd1]
  have hd3 : dictLoop S t i (S.maxWordLength + 1) (acrOp S t (numSepOp S t dp i) i)
      (i + 1) i = dp i := by
    rw [dictLoop_ne S t i _ _ _ i (by omega), hd2]
  cases htr with
  | repair hi ht =>
    rw [if_pos ht, repairOp, if_pos (by omega)]
    exact relaxFrom_at (i + 1) (S.unknownCost + 50) hci
  | digit hi ht hd =>
    rw [if_neg (by rw [ht]; exact Bool.false_ne_true)]
    refine leCost_trans (unkOp_mono _ _ _ _ _) ?_
    refine leCost_trans (dictLoop_mono S t i _ _ _ _) ?_
    refine leCost_trans (acrOp_mono _ _ _ _ _) ?_
    rw [numSepOp, if_pos hd]
    exact relaxFrom_at _ 1 hci
  | sep hi ht hd hs =>
    rw [if_neg (by rw [ht]; exact Bool.false_ne_true)]
    refine leCost_trans (unkOp_mono _ _ _ _ _) ?_
    refine leCost_trans (dictLoop_mono S t i _ _ _ _) ?_
    refine leCost_trans (acrOp_mono _ _ _ _ _) ?_
    rw [numSepOp, if_neg (by rw [hd]; exact Bool.false_ne_true), if_pos hs]
    exact relaxFrom_at _ (1/10) hci
  | acr hi ht ha =>
    rw [if_neg (by rw [ht]; exact Bool.false_ne_true)]
    refine leCost_trans (unkOp_mono _ _ _ _ _) ?_
    refine leCost_trans (dictLoop_mono S t i _ _ _ _) ?_
    rw [acrOp, if_pos ha]
    exact relaxFrom_at _ S.defaultCost (by rw [hd1, hci])
  | dict hj0 hi ht hj1 hj2 hw =>
    rw [if_neg (by rw [ht]; exact Bool.false_ne_true)]
    refine leCost_trans (unkOp_mono _ _ _ _ _) ?_
    exact dictLoop_at S t i _ _ (i + 1) (by omega) j ci hj1 hj2 (by omega) hw
      (by rw [hd2, hci])

  | unkKh hi ht hk hn =>
    rw [if_neg (by rw [ht]; exact Bool.false_ne_true)]
    rw [unkOp, if_pos hk, if_pos hn]
    exact relaxFrom_at _ (unkStepCost S t i) (by rw [hd3, hci])
  | unkOther hi ht hk hn =>
    rw [if_neg (by rw [ht]; exact Bool.false_ne_true)]
    rw [unkOp, if_neg (by rw [hk]; exact Bool.false_ne_true), if_pos hn]
    exact relaxFrom_at _ S.unknownCost (by rw [hd3, hci])

/-- From every reached position `i < n` the iteration at `i` reaches some
strictly later position (the forced repair and the unknown fallback together
guarantee progress). -/
theorem dpStep_progress (S : Seg) (t : List Nat) {dp : Nat → Entry} {i : Nat} {ci : Rat}
    (hi : i < t.length)
    (hci : (dp i).cost = some ci) :
    ∃ j, i < j ∧ j ≤ t.length ∧ ((dpStep S t dp i) j).cost.isSome := by
  rw [dpStep, hci]
  simp only []
  have hd1 : numSepOp S t dp i i = dp i := numSepOp_ne (le_refl i)
  have hd2 : acrOp S t (numSepOp S t dp i) i i = dp i := by rw [acrOp_ne (le_refl i), hd1]
  have hd3 : dictLoop S t i (S.maxWordLength + 1) (acrOp S t (numSepOp S t dp i) i)
      (i + 1) i = dp i := by
    rw [dictLoop_ne S t i _ _ _ i (by omega), hd2]
  by_cases htr : trapped t i = true
  · refine ⟨i + 1, by omega, by omega, ?_⟩
    rw [if_pos htr, repairOp, if_pos (by omega)]
    exact relaxFrom_isSome_at (i + 1) (S.unknownCost + 50) hci
  · rw [if_neg htr]
    by_cases hk : isKhmerCU (t.getD i 0) = true
    · have hcl := clusterLen_pos t i hi
      have hcle := clusterLen_add_le t i hi
      refine ⟨i + clusterLen t i, by omega, by omega, ?_⟩
      rw [unkOp, if_pos hk, if_pos (by omega)]
      exact relaxFrom_isSome_at _ (unkStepCost S t i) (by rw [hd3, hci])
    · refine ⟨i + 1, by omega, by omega, ?_⟩
      rw [unkOp, if_neg hk, if_pos (by omega)]
      exact relaxFrom_isSome_at _ S.unknownCost (by rw [hd3, hci])

/-- Later loop iterations only improve a cell's cost. -/
theorem dpUpTo_mono_future (S : Seg) (t : List Nat) (k : Nat) :
    ∀ m m', m ≤ m' → leCost ((dpUpTo S t m') k).cost ((dpUpTo S t m) k).cost := by
  intro m m' h
  induction m' with
  | zero =>
    have : m = 0 := by omega
    subst this
    exact leCost_refl _
  | succ m' ih =>
    by_cases hm : m = m' + 1
    · subst hm; exact leCost_refl _
    · have h2 : m ≤ m' := by omega
      exact leCost_trans (dpStep_mono S t (dpUpTo S t m') m' k) (ih h2)

theorem dpUpTo_isSome_future (S : Seg) (t : List Nat) (k : Nat) {m m' : Nat} (h : m ≤ m')
    (hs : ((dpUpTo S t m) k).cost.isSome) : ((dpUpTo S t m') k).cost.isSome := by
  have hm := dpUpTo_mono_future S t k m m' h
  cases hc : ((dpUpTo S t m) k).cost with
  | none => rw [hc] at hs; cases hs
  | some c => rw [hc] at hm; exact isSome_of_leCost hm

/-- Reachability propagates forward to the last cell. -/
theorem dpReach (S : Seg) (t : List Nat) :
    ∀ d k, t.length - k ≤ d → k ≤ t.length → ((dpUpTo S t t.length) k).cost.isSome →
      ((dpUpTo S t t.length) t.length).cost.isSome := by
  intro d
  induction d with
  | zero =>
    intro k h1 h2 hs
    have : k = t.length := by omega
    subst this
    exact hs
  | succ d ih =>
    intro k h1 h2 hs
    by_cases hk : k = t.length
    · subst hk; exact hs
    · have hklt : k < t.length := by omega
      have hstable : dpUpTo S t t.length k = dpUpTo S t k k :=
        dpUpTo_stable S t t.length k (by omega)
      rw [hstable] at hs
      obtain ⟨ci, hci⟩ := Option.isSome_iff_exists.mp hs
      obtain ⟨j, hj1, hj2, hj3⟩ := dpStep_progress S t hklt hci
      have hj4 : ((dpUpTo S t (k + 1)) j).cost.isSome := hj3
      have hj5 : ((dpUpTo S t t.length) j).cost.isSome :=
        dpUpTo_isSome_future S t j (by omega) hj4
      exact ih j (by omega) hj2 hj5

/-- Every cover of `text[0..j)` bounds the final DP value at `j`. -/
theorem coversLe (S : Seg) (t : List Nat) :
    ∀ {j c}, Covers S t j c → leCost ((dpUpTo S t t.length) j).cost (some c) := by
  intro j c h
  induction h with
  | nil =>
    rw [dpUpTo_stable S t t.length 0 (by omega)]
    show leCost (dpInit 0).cost (some 0)
    rw [dpInit]
    simp [leCost]
  | step h1 h2 ih =>
    rename_i i c1 j2 s
    obtain ⟨hij, hjn⟩ := trans_bounds h2
    have hin : i < t.length := lt_of_lt_of_le hij hjn
    rw [dpUpTo_stable S t t.length i (by omega)] at ih
    obtain ⟨ci, hci, hcic⟩ := leCost_some_elim ih
    have hstep : leCost ((dpUpTo S t (i + 1)) j2).cost (some (ci + s)) := dpStep_trans h2 hci
    refine leCost_trans (dpUpTo_mono_future S t j2 (i + 1) t.length (by omega)) ?_
    exact leCost_mono_right hstep (add_le_add_right hcic s)

/-! ### Backtrack lemmas -/

theorem sliceL_append {t : List Nat} {a b : Nat} (hab : a ≤ b) :
    t.take a ++ sliceL t a b = t.take b := by
  rw [sliceL]
  have h1 : (t.take b).take a = t.take a := by rw [List.take_take, min_eq_left hab]
  calc t.take a ++ (t.take b).drop a
      = (t.take b).take a ++ (t.take b).drop a := by rw [h1]
    _ = t.take b := List.take_append_drop a (t.take b)

theorem sliceL_ne_nil {t : List Nat} {a b : Nat} (hab : a < b) (hb : b ≤ t.length) :
    sliceL t a b ≠ [] := by
  rw [sliceL]
  intro h
  have hlen := congrArg List.length h
  simp only [List.length_drop, List.length_take, List.length_nil] at hlen
  omega

/-- The reversed backtrack output concatenates exactly to the covered prefix,
as long as every `prev` pointer goes strictly backwards. -/
theorem backtrack_join (dp : Nat → Entry) (t : List Nat)
    (hinv : ∀ k q, (dp k).prev = some q → q < k) :
    ∀ fuel c, c ≤ fuel → (backtrackAux dp t fuel c).reverse.flatten = t.take c := by
  intro fuel
  induction fuel with
  | zero =>
    intro c hc
    have : c = 0 := by omega
    subst this
    simp [backtrackAux]
  | succ fuel ih =>
    intro c hc
    cases c with
    | zero => simp [backtrackAux]
    | succ c' =>
      rw [backtrackAux]
      cases hp : (dp (c' + 1)).prev with
      | none =>
        simp only [List.reverse_cons, List.flatten_append, List.flatten_cons,
          List.flatten_nil, List.append_nil]
        rw [ih c' (by omega)]
        exact sliceL_append (by omega)
      | some p =>
        have hpc : p < c' + 1 := hinv _ _ hp
        simp only [List.reverse_cons, List.flatten_append, List.flatten_cons,
          List.flatten_nil, List.append_nil]
        rw [ih p (by omega)]
        exact sliceL_append (by omega)

/-- Every segment the backtrack pushes is a non-empty slice. -/
theorem backtrack_nonempty (dp : Nat → Entry) (t : List Nat)
    (hinv : ∀ k q, (dp k).prev = some q → q < k) :
    ∀ fuel c, c ≤ t.length → ∀ s ∈ backtrackAux dp t fuel c, s ≠ [] := by
  intro fuel
  induction fuel with
  | zero =>
    intro c hc s hs
    simp [backtrackAux] at hs
  | succ fuel ih =>
    intro c hc s hs
    cases c with
    | zero => simp [backtrackAux] at hs
    | succ c' =>
      rw [backtrackAux] at hs
      revert hs
      cases hp : (dp (c' + 1)).prev with
      | none =>
        intro hs
        rcases List.mem_cons.mp hs with h | h
        · subst h; exact sliceL_ne_nil (by omega) (by omega)
        · exact ih c' (by omega) s h
      | some p =>
        have hpc : p < c' + 1 := hinv _ _ hp
        intro hs
        rcases List.mem_cons.mp hs with h | h
        · subst h; exact sliceL_ne_nil (by omega) (by omega)
        · exact ih p (by omega) s h

/-! ### Rule-engine loop lemmas -/

theorem exists_two_split {l : List (List Nat)} {i : Nat} (h : i + 1 < l.length) :
    ∃ (l1 : List (List Nat)) (a b : List Nat) (l2 : List (List Nat)),
      l = l1 ++ a :: b :: l2 ∧ l1.length = i := by
  induction l generalizing i with
  | nil => simp at h
  | cons x xs ih =>
    cases i with
    | zero =>
      cases xs with
      | nil => simp at h
      | cons y ys => exact ⟨[], x, y, ys, rfl, rfl⟩
    | succ i' =>
      have h2 : i' + 1 < xs.length := by simp at h; omega
      obtain ⟨l1, a, b, l2, he, hl⟩ := ih h2
      exact ⟨x :: l1, a, b, l2, by simp [he], by simp [hl]⟩

theorem mergeAt_decomp (l1 : List (List Nat)) (a b : List Nat) (l2 : List (List Nat)) :
    mergeAt (l1 ++ a :: b :: l2) l1.length = l1 ++ (a ++ b) :: l2 := by
  induction l1 with
  | nil => simp [mergeAt]
  | cons x l1 ih =>
    simp only [List.cons_append, List.length_cons, mergeAt, List.take_succ_cons,
      List.getD_cons_succ, List.drop_succ_cons] at ih ⊢
    exact congrArg (x :: ·) ih

theorem applyRulesAux_join (eng : Engine) :
    ∀ fuel segs i, 2 * segs.length - i < fuel →
      (applyRulesAux eng segs i).flatten = segs.flatten := by
  intro fuel
  induction fuel with
  | zero => intro segs i h; omega
  | succ fuel ih =>
    intro segs i h
    rw [applyRulesAux]
    split
    · rename_i hlen
      split
      · rename_i hf
        have hb : i + 1 < segs.length := findFire_mergeNext hf
        obtain ⟨l1, a, b, l2, he, hl⟩ := exists_two_split hb
        have hm : mergeAt segs i = l1 ++ (a ++ b) :: l2 := by
          rw [he, ← hl, mergeAt_decomp]
        have hlen2 : (mergeAt segs i).length = segs.length - 1 := by
          rw [hm, he]; simp
        rw [ih (mergeAt segs i) i (by omega), hm, he]
        simp [List.flatten_append]
      · rename_i hf
        have hb : 0 < i := findFire_mergePrev hf
        have hb2 : (i - 1) + 1 < segs.length := by omega
        obtain ⟨l1, a, b, l2, he, hl⟩ := exists_two_split hb2
        have hm : mergeAt segs (i - 1) = l1 ++ (a ++ b) :: l2 := by
          rw [he, ← hl, mergeAt_decomp]
        have hlen2 : (mergeAt segs (i - 1)).length = segs.length - 1 := by
          rw [hm, he]; simp
        rw [ih (mergeAt segs (i - 1)) (i - 1) (by omega), hm, he]
        simp [List.flatten_append]
      · exact ih segs (i + 1) (by omega)
      · exact ih segs (i + 1) (by omega)
    · rfl

theorem applyRules_join (eng : Engine) (segs : List (List Nat)) :
    (applyRulesAux eng segs 0).flatten = segs.flatten :=
  applyRulesAux_join eng (2 * segs.length + 1) segs 0 (by omega)

theorem applyRulesAux_nonempty (eng : Engine) :
    ∀ fuel segs i, 2 * segs.length - i < fuel → (∀ s ∈ segs, s ≠ []) →
      ∀ s ∈ applyRulesAux eng segs i, s ≠ [] := by
  intro fuel
  induction fuel with
  | zero => intro segs i h; omega
  | succ fuel ih =>
    intro segs i h hne
    rw [applyRulesAux]
    split
    · rename_i hlen
      split
      · rename_i hf
        have hb : i + 1 < segs.length := findFire_mergeNext hf
        obtain ⟨l1, a, b, l2, he, hl⟩ := exists_two_split hb
        have hm : mergeAt segs i = l1 ++ (a ++ b) :: l2 := by
          rw [he, ← hl, mergeAt_decomp]
        have hlen2 : (mergeAt segs i).length = segs.length - 1 := by
          rw [hm, he]; simp
        refine ih (mergeAt segs i) i (by omega) ?_
        intro s hs
        rw [hm] at hs
        rcases List.mem_append.mp hs with h1 | h1
        · exact hne s (by rw [he]; exact List.mem_append.mpr (Or.inl h1))
        · rcases List.mem_cons.mp h1 with h2 | h2
          · subst h2
            have ha : a ≠ [] := hne a (by rw [he]; simp)
            simp [ha]
          · exact hne s (by rw [he]; simp [h2])
      · rename_i hf
        have hb : 0 < i := findFire_mergePrev hf
        have hb2 : (i - 1) + 1 < segs.length := by omega
        obtain ⟨l1, a, b, l2, he, hl⟩ := exists_two_split hb2
        have hm : mergeAt segs (i - 1) = l1 ++ (a ++ b) :: l2 := by
          rw [he, ← hl, mergeAt_decomp]
        have hlen2 : (mergeAt segs (i - 1)).length = segs.length - 1 := by
          rw [hm, he]; simp
        refine ih (mergeAt segs (i - 1)) (i - 1) (by omega) ?_
        intro s hs
        rw [hm] at hs
        rcases List.mem_append.mp hs with h1 | h1
        · exact hne s (by rw [he]; exact List.mem_append.mpr (Or.inl h1))
        · rcases List.mem_cons.mp h1 with h2 | h2
          · subst h2
            have ha : a ≠ [] := hne a (by rw [he]; simp)
            simp [ha]
          · exact hne s (by rw [he]; simp [h2])
      · exact ih segs (i + 1) (by omega) hne
      · exact ih segs (i + 1) (by omega) hne
    · exact hne

/-! ### Grouper lemmas -/

theorem flushBuf_flatten (buf : List (List Nat)) : (flushBuf buf).flatten = buf.flatten := by
  rw [flushBuf]
  split
  · rename_i h
    rw [List.isEmpty_iff.mp h]
  · simp

theorem grouperLoop_flatten (S : Seg) :
    ∀ l buf, (grouperLoop S l buf).flatten = buf.flatten ++ l.flatten := by
  intro l
  induction l with
  | nil => intro buf; rw [grouperLoop]; simp [flushBuf_flatten]
  | cons seg rest ih =>
    intro buf
    rw [grouperLoop]
    split
    · simp only [List.flatten_append, List.flatten_cons, flushBuf_flatten, ih]
      simp
    · split
      · simp only [List.flatten_append, flushBuf_flatten, ih]
        simp
      · rw [ih]
        simp

theorem flushBuf_nonempty (buf : List (List Nat)) (hne : ∀ s ∈ buf, s ≠ []) :
    ∀ s ∈ flushBuf buf, s ≠ [] := by
  rw [flushBuf]
  split
  · intro s hs; simp at hs
  · rename_i h
    intro s hs
    rcases List.mem_cons.mp hs with h1 | h1
    · subst h1
      cases buf with
      | nil => simp at h
      | cons x xs =>
        have hx : x ≠ [] := hne x (by simp)
        simp [hx]
    · simp at h1

theorem grouperLoop_nonempty (S : Seg) :
    ∀ l buf, (∀ s ∈ l, s ≠ []) → (∀ s ∈ buf, s ≠ []) →
      ∀ s ∈ grouperLoop S l buf, s ≠ [] := by
  intro l
  induction l with
  | nil =>
    intro buf _ hbuf s hs
    rw [grouperLoop] at hs
    exact flushBuf_nonempty buf hbuf s hs
  | cons seg rest ih =>
    intro buf hl hbuf s hs
    have hseg : seg ≠ [] := hl seg (by simp)
    have hrest : ∀ x ∈ rest, x ≠ [] := fun x hx => hl x (by simp [hx])
    rw [grouperLoop] at hs
    revert hs
    split
    · intro hs
      rcases List.mem_append.mp hs with h1 | h1
      · exact flushBuf_nonempty buf hbuf s h1
      · rcases List.mem_cons.mp h1 with h2 | h2
        · subst h2; exact hseg
        · exact ih [] hrest (by simp) s h2
    · split
      · intro hs
        rcases List.mem_append.mp hs with h1 | h1
        · exact flushBuf_nonempty buf hbuf s h1
        · refine ih [seg] hrest ?_ s h1
          intro x hx
          rcases List.mem_singleton.mp hx with h2
          subst h2; exact hseg
      · intro hs
        refine ih (buf ++ [seg]) hrest ?_ s hs
        intro x hx
        rcases List.mem_append.mp hx with h1 | h1
        · exact hbuf x h1
        · rcases List.mem_singleton.mp h1 with h2
          subst h2; exact hseg

/-! ### Claim theorems: segmentation pipeline -/

theorem raw_join (S : Seg) (t : List Nat) :
    ((backtrackAux (runDP S t) t t.length t.length).reverse).flatten = t := by
  rw [backtrack_join (runDP S t) t (runDP_prev_lt S t) t.length t.length (le_refl _)]
  exact List.take_length t

/-- C1: for every input string and every segmenter state, the concatenation of
the token list returned by `segment` with post-processing enabled is exactly
the normalized text: the backtrack covers the text, rule-engine merges and
keeps only concatenate or pass tokens through, and the grouper only
concatenates buffered tokens. -/
theorem c1_concat_segment_eq_normalize (S : Seg) (x : List Nat) :
    (segment S x false).flatten = normalize x := by
  rw [segment]
  simp only []
  by_cases hn : (normalize x).length = 0
  · rw [if_pos hn]
    simpa using (List.length_eq_zero.mp hn).symm
  · rw [if_neg hn, if_neg Bool.false_ne_true]
    rw [grouperLoop_flatten, applyRules_join, raw_join]
    simp

/-- C10: every token returned by `segment`, for both settings of
`disablePostProcessing`, is a non-empty string. -/
theorem c10_tokens_nonempty (S : Seg) (x : List Nat) (d : Bool) (s : List Nat)
    (hs : s ∈ segment S x d) : s ≠ [] := by
  rw [segment] at hs
  simp only [] at hs
  by_cases hn : (normalize x).length = 0
  · rw [if_pos hn] at hs
    simp at hs
  · rw [if_neg hn] at hs
    have hraw : ∀ s2 ∈ (backtrackAux (runDP S (normalize x)) (normalize x)
        (normalize x).length (normalize x).length).reverse, s2 ≠ [] := by
      intro s2 hs2
      exact backtrack_nonempty (runDP S (normalize x)) (normalize x)
        (runDP_prev_lt S (normalize x)) (normalize x).length (normalize x).length
        (le_refl _) s2 (List.mem_reverse.mp hs2)
    cases d with
    | true =>
      rw [if_pos rfl] at hs
      exact hraw s hs
    | false =>
      rw [if_neg Bool.false_ne_true] at hs
      refine grouperLoop_nonempty S _ [] ?_ (by simp) s hs
      intro s2 hs2
      exact applyRulesAux_nonempty (segEngine S)
        (2 * ((backtrackAux (runDP S (normalize x)) (normalize x) (normalize x).length
          (normalize x).length).reverse).length + 1) _ 0 (by omega) hraw s2 hs2

/-- C10 witness at a concrete input (the raw, post-processing-disabled path). -/
theorem c10_tokens_nonempty_witness :
    ([0x61] ∈ segment S0 [0x61] true) ∧ ([0x61] : List Nat) ≠ [] :=
  ⟨by decide, c10_tokens_nonempty S0 [0x61] true [0x61] (by decide)⟩

/-- C2: segmentation never fails.  For every input whose normalized form is
non-empty the DP loop makes `dp[n].cost` finite, and the backtrack (being a
total function here) returns a token list; for an input whose normalized form
is empty, `segment` returns the empty list. -/
theorem c2_segmentation_never_fails (S : Seg) (x : List Nat) (d : Bool) :
    ((normalize x).length ≠ 0 →
      ∃ c, ((runDP S (normalize x)) (normalize x).length).cost = some c) ∧
    (normalize x = [] → segment S x d = []) := by
  constructor
  · intro hn
    have h0 : ((dpUpTo S (normalize x) (normalize x).length) 0).cost.isSome := by
      rw [dpUpTo_stable S (normalize x) (normalize x).length 0 (by omega)]
      rfl
    have hend := dpReach S (normalize x) (normalize x).length 0 (by omega) (by omega) h0
    exact Option.isSome_iff_exists.mp hend
  · intro h
    rw [segment]
    simp [h]

/-- C2 witness at a concrete input. -/
theorem c2_segmentation_never_fails_witness :
    ((normalize [0x61]).length ≠ 0) ∧
    (∃ c, ((runDP S0 (normalize [0x61])) (normalize [0x61]).length).cost = some c) :=
  ⟨by decide, (c2_segmentation_never_fails S0 [0x61] false).1 (by decide)⟩

/-- C3: the DP table is optimal with respect to the transition table: no cover
of `text[0..n)` composable from the proposed transitions has a total cost
strictly below `dp[n].cost` (and the existence of a cover makes `dp[n]`
finite). -/
theorem c3_dp_minimizes_cover_cost (S : Seg) (t : List Nat) (c : Rat)
    (h : Covers S t t.length c) :
    ∃ d, ((runDP S t) t.length).cost = some d ∧ d ≤ c :=
  leCost_some_elim (coversLe S t h)

/-- C3 witness: a concrete one-transition cover of a one-character text. -/
theorem c3_dp_minimizes_cover_cost_witness :
    ∃ d, ((runDP S0 (normalize [0x61])) (normalize [0x61]).length).cost = some d ∧
      d ≤ 0 + S0.unknownCost := by
  refine c3_dp_minimizes_cover_cost S0 (normalize [0x61]) (0 + S0.unknownCost) ?_
  have hlen : (normalize [0x61]).length = 1 := by decide
  rw [hlen]
  have htrans : Trans S0 (normalize [0x61]) 0 (0 + 1) S0.unknownCost := by
    refine Trans.unkOther 0 (by decide) (by decide) (by decide) (by decide)
  exact Covers.step Covers.nil htrans

/-- C9: the rule-rewriting loop terminates, within the lexicographic budget
`2·length + 1` given by "each merge shortens the sequence, every other
iteration advances the index": the fuelled loop finishes with exactly the
total function's result. -/
theorem c9_applyRules_terminates (eng : Engine) (segs : List (List Nat)) :
    applyRulesFuel eng (2 * segs.length + 1) segs 0 = some (applyRulesAux eng segs 0) := by
  have main : ∀ fuel segs2 i, 2 * segs2.length - i < fuel →
      applyRulesFuel eng fuel segs2 i = some (applyRulesAux eng segs2 i) := by
    intro fuel
    induction fuel with
    | zero => intro segs2 i h; omega
    | succ fuel ih =>
      intro segs2 i h
      rw [applyRulesFuel, applyRulesAux]
      by_cases hlen : i < segs2.length
      · rw [if_pos hlen, dif_pos hlen]
        cases hf : findFire eng segs2 i eng.rules with
        | none => exact ih segs2 (i + 1) (by omega)
        | some k =>
          cases k with
          | mergeNext =>
            have hb : i + 1 < segs2.length := findFire_mergeNext hf
            have hl : (mergeAt segs2 i).length = segs2.length - 1 := mergeAt_length hb
            exact ih (mergeAt segs2 i) i (by omega)
          | mergePrev =>
            have hb : 0 < i := findFire_mergePrev hf
            have hb2 : (i - 1) + 1 < segs2.length := by omega
            have hl : (mergeAt segs2 (i - 1)).length = segs2.length - 1 := mergeAt_length hb2
            exact ih (mergeAt segs2 (i - 1)) (i - 1) (by omega)
          | keep => exact ih segs2 (i + 1) (by omega)
      · rw [if_neg hlen, dif_neg hlen]
  exact main (2 * segs.length + 1) segs 0 (by omega)

/-! ### C7: the `isUnknown` predicate -/

/-- C7 counterexample: on the empty string the source returns `false`
(`if (!word) return false`), while the claim's condition list makes the empty
string unknown (no condition holds for it when the dictionary is empty). -/
theorem c7_isUnknown_empty_cx : ¬ (isUnknown S0 [] = !specKnownCond S0 []) := by
  decide

theorem length_beq_zero (cs : List Nat) : (cs.length == 0) = decide (cs = []) := by
  cases cs <;> simp

/-- C7 (amended): for every non-empty string, `isUnknown` is true exactly when
none of the listed known-token conditions holds; the empty string is always
reported known. -/
theorem c7_isUnknown_iff (S : Seg) (w : List Nat) (hw : w ≠ []) :
    isUnknown S w = !specKnownCond S w := by
  cases w with
  | nil => exact absurd rfl hw
  | cons c cs =>
    rw [isUnknown, specKnownCond]
    simp only [List.isEmpty_cons, Bool.false_eq_true, if_false, List.headD_cons]
    by_cases h1 : S.words.contains (c :: cs) = true <;>
    by_cases h2 : isDigitCU c = true <;>
    by_cases h3 : isSepStr S (c :: cs) = true <;>
    by_cases h4 : (((c :: cs).length == 1) && isValidSingleBase c) = true <;>
    by_cases h5 : ((c :: cs).contains 0x2E && decide (2 ≤ (c :: cs).length)) = true <;>
    simp [h1, h2, h3, h4, h5, List.length_eq_zero, Nat.succ_le_iff, List.length_pos,
      length_beq_zero, Bool.and_assoc]

/-- C7 witness: the amended equivalence at a concrete non-empty string. -/
theorem c7_isUnknown_iff_witness :
    (([0x41] : List Nat) ≠ []) ∧ isUnknown S0 [0x41] = !specKnownCond S0 [0x41] :=
  ⟨by decide, c7_isUnknown_iff S0 [0x41] (by decide)⟩

/-! ### C8: rule compilation -/

/-- C8 counterexample: a rule with a trigger type outside
{exact_match, regex, complexity_check} is *kept* by `_compileRules` (only
regex rules with uncompilable patterns are skipped), so the compiled list can
contain such a rule. -/
theorem c8_unknown_trigger_kept_cx :
    badRule ∈ compileRules (fun _ => true) [badRule] ∧
    ¬(badRule.ttype = "exact_match" ∨ badRule.ttype = "regex" ∨
      badRule.ttype = "complexity_check") := by
  constructor
  · decide
  · decide

theorem mem_insertRule_self (r : Rule) : ∀ l, r ∈ insertRule r l := by
  intro l
  induction l with
  | nil => simp [insertRule]
  | cons x xs ih =>
    rw [insertRule]
    split
    · exact List.mem_cons_of_mem x ih
    · simp

theorem mem_insertRule_of_mem {x : Rule} (r : Rule) : ∀ {l}, x ∈ l → x ∈ insertRule r l := by
  intro l
  induction l with
  | nil => intro h; simp at h
  | cons y ys ih =>
    intro h
    rw [insertRule]
    split
    · rcases List.mem_cons.mp h with h1 | h1
      · simp [h1]
      · exact List.mem_cons_of_mem y (ih h1)
    · exact List.mem_cons_of_mem r h

theorem mem_sortRules {r : Rule} : ∀ {l}, r ∈ l → r ∈ sortRules l := by
  intro l
  induction l with
  | nil => intro h; simp at h
  | cons x xs ih =>
    intro h
    rw [sortRules]
    rcases List.mem_cons.mp h with h1 | h1
    · subst h1; exact mem_insertRule_self r (sortRules xs)
    · exact mem_insertRule_of_mem x (ih h1)

/-- C8 (amended): a rule whose trigger type lies outside
{exact_match, regex, complexity_check} is retained by rule compilation, but it
can never fire: its trigger matches no segment. -/
theorem c8_unknown_trigger_inert (regexOk : List Nat → Bool) (rules : List Rule) (r : Rule)
    (hr : r ∈ rules)
    (ht : ¬(r.ttype = "exact_match" ∨ r.ttype = "regex" ∨ r.ttype = "complexity_check")) :
    r ∈ compileRules regexOk rules ∧ ∀ eng seg, matchTrigger eng seg r = false := by
  push_neg at ht
  obtain ⟨h1, h2, h3⟩ := ht
  constructor
  · rw [compileRules]
    refine List.mem_filter.mpr ⟨mem_sortRules hr, ?_⟩
    simp [h2]
  · intro eng seg
    rw [matchTrigger]
    rw [if_neg (by simp [h1]), if_neg (by simp [h2]), if_neg (by simp [h3])]

/-- C8 witness: the amended statement at the concrete unknown-trigger rule. -/
theorem c8_unknown_trigger_inert_witness :
    (badRule ∈ compileRules (fun _ => true) [badRule] ∧
      ∀ eng seg, matchTrigger eng seg badRule = false) :=
  c8_unknown_trigger_inert (fun _ => true) [badRule] badRule (by decide) (by decide)

/-! ### C6: the frequency loader -/

/-- The running total accumulates one effective count per *input* entry. -/
theorem freqLoop_total : ∀ (data : List (List Nat × Rat)) ec t0,
    (freqLoop data ec t0).2 = t0 + specSumEff data := by
  intro data
  induction data with
  | nil => intro ec t0; rw [freqLoop, specSumEff]; simp
  | cons p rest ih =>
    intro ec t0
    obtain ⟨w, c⟩ := p
    rw [freqLoop, ih]
    rw [specSumEff, specSumEff]
    simp [add_assoc]

theorem setKey_vals {m : List (List Nat × Rat)} {v : Rat}
    (hm : ∀ p ∈ m, 5 ≤ p.2) (hv : 5 ≤ v) (k : List Nat) :
    ∀ p ∈ setKey m k v, 5 ≤ p.2 := by
  induction m with
  | nil =>
    intro p hp
    rw [setKey] at hp
    rcases List.mem_singleton.mp hp with h
    subst h; exact hv
  | cons q rest ih =>
    intro p hp
    obtain ⟨k', v'⟩ := q
    rw [setKey] at hp
    revert hp
    split
    · intro hp
      rcases List.mem_cons.mp hp with h | h
      · subst h; exact hv
      · exact hm p (List.mem_cons_of_mem _ h)
    · intro hp
      rcases List.mem_cons.mp hp with h | h
      · subst h; exact hm _ (by simp)
      · exact ih (fun q hq => hm q (List.mem_cons_of_mem _ hq)) p h

theorem varFold_vals {eff : Rat} (heff : 5 ≤ eff) :
    ∀ (vars : List (List Nat)) (m : List (List Nat × Rat)), (∀ p ∈ m, 5 ≤ p.2) →
      ∀ p ∈ vars.foldl
        (fun m v => if (m.lookup v).isSome then m else m ++ [(v, eff)]) m, 5 ≤ p.2 := by
  intro vars
  induction vars with
  | nil => intro m hm p hp; exact hm p hp
  | cons v vs ih =>
    intro m hm p hp
    rw [List.foldl_cons] at hp
    refine ih _ ?_ p hp
    split
    · exact hm
    · intro q hq
      rcases List.mem_append.mp hq with h | h
      · exact hm q h
      · rcases List.mem_singleton.mp h with h2
        subst h2; exact heff

theorem freqLoop_vals : ∀ (data : List (List Nat × Rat)) ec t0, (∀ p ∈ ec, 5 ≤ p.2) →
    ∀ p ∈ (freqLoop data ec t0).1, 5 ≤ p.2 := by
  intro data
  induction data with
  | nil => intro ec t0 hec p hp; exact hec p hp
  | cons q rest ih =>
    intro ec t0 hec p hp
    obtain ⟨w, c⟩ := q
    rw [freqLoop] at hp
    refine ih _ _ ?_ p hp
    exact varFold_vals (le_max_right c 5) _ _ (setKey_vals hec (le_max_right c 5) _)

theorem wcLoop_map (log10 : Rat → Rat) (tot : Rat) :
    ∀ m : List (List Nat × Rat), (∀ p ∈ m, 0 < p.2 / tot) →
      wcLoop log10 tot m = m.map (fun p => (p.1, -(log10 (p.2 / tot)))) := by
  intro m
  induction m with
  | nil => intro _; rw [wcLoop]; simp
  | cons q rest ih =>
    intro hm
    obtain ⟨w, c⟩ := q
    rw [wcLoop, if_pos (hm (w, c) (by simp)), ih (fun p hp => hm p (by simp [hp]))]
    simp

theorem specSumEff_pos {data : List (List Nat × Rat)} (hd : data ≠ []) :
    0 < specSumEff data := by
  cases data with
  | nil => exact absurd rfl hd
  | cons p rest =>
    rw [specSumEff]
    simp only [List.map_cons, List.sum_cons]
    have h1 : (5 : Rat) ≤ max p.2 5 := le_max_right _ _
    have h2 : 0 ≤ ((rest.map fun p => max p.2 5).sum : Rat) := by
      refine List.sum_nonneg ?_
      intro x hx
      obtain ⟨q, hq, rfl⟩ := List.mem_map.mp hx
      have : (5 : Rat) ≤ max q.2 5 := le_max_right _ _
      linarith
    linarith

theorem loadFrequencies_totalTokens (log10 : Rat → Rat) (data : List (List Nat × Rat)) :
    (loadFrequencies log10 data).totalTokens = (freqLoop data [] 0).2 := by
  rw [loadFrequencies]
  split <;> rfl

theorem loadFrequencies_effectiveCounts (log10 : Rat → Rat) (data : List (List Nat × Rat)) :
    (loadFrequencies log10 data).effectiveCounts = (freqLoop data [] 0).1 := by
  rw [loadFrequencies]
  split <;> rfl

/-- C6 counterexample: with a single frequency entry whose word generates a
variant, the code's normalizing total (5) differs from the sum of effective
counts over all cost-table entries including the variant (10). -/
theorem c6_total_excludes_variants_cx :
    (loadFrequencies (fun _ => 0) [([0x178F, 0x17D2, 0x178F], 5)]).totalTokens ≠
      specTableSum (loadFrequencies (fun _ => 0)
        [([0x178F, 0x17D2, 0x178F], 5)]).effectiveCounts := by
  rw [loadFrequencies_totalTokens, loadFrequencies_effectiveCounts]
  have h1 : (freqLoop [([0x178F, 0x17D2, 0x178F], (5 : Rat))] [] 0).2 = 0 + max 5 5 := rfl
  have h2 : (freqLoop [([0x178F, 0x17D2, 0x178F], (5 : Rat))] [] 0).1 =
      [([0x178F, 0x17D2, 0x178F], max 5 5), ([0x178F, 0x17D2, 0x178A], max 5 5)] := rfl
  rw [h1, h2, specTableSum]
  simp only [List.map_cons, List.map_nil, List.sum_cons, List.sum_nil, max_self]
  norm_num

/-- C6 (amended): the normalizing total `T` is the sum of effective counts
`max(count, 5)` over the *input* frequency entries only (generated variants
inherit the effective count for their own cost but do not contribute to `T`);
`defaultCost = -log10(5/T)`, `unknownCost = defaultCost + 5`, and every entry
of the cost table gets cost `-log10(eff/T)`. -/
theorem c6_frequency_costs (log10 : Rat → Rat) (data : List (List Nat × Rat))
    (hd : data ≠ []) :
    (loadFrequencies log10 data).totalTokens = specSumEff data ∧
    (loadFrequencies log10 data).defaultCost =
      -(log10 (5 / (loadFrequencies log10 data).totalTokens)) ∧
    (loadFrequencies log10 data).unknownCost =
      (loadFrequencies log10 data).defaultCost + 5 ∧
    (loadFrequencies log10 data).wordCosts =
      (loadFrequencies log10 data).effectiveCounts.map
        (fun p => (p.1, -(log10 (p.2 / (loadFrequencies log10 data).totalTokens)))) := by
  have htot : (freqLoop data [] 0).2 = specSumEff data := by
    rw [freqLoop_total]; simp
  have hpos : 0 < (freqLoop data [] 0).2 := by
    rw [htot]; exact specSumEff_pos hd
  have hvals : ∀ p ∈ (freqLoop data [] 0).1, 5 ≤ p.2 :=
    freqLoop_vals data [] 0 (by simp)
  have hL : loadFrequencies log10 data =
      ⟨(freqLoop data [] 0).1, (freqLoop data [] 0).2,
        -(log10 (5 / (freqLoop data [] 0).2)), -(log10 (5 / (freqLoop data [] 0).2)) + 5,
        wcLoop log10 (freqLoop data [] 0).2 (freqLoop data [] 0).1⟩ := by
    rw [loadFrequencies]
    simp only [if_pos hpos]
  rw [hL]
  refine ⟨htot, rfl, rfl, ?_⟩
  simp only []
  refine wcLoop_map log10 (freqLoop data [] 0).2 (freqLoop data [] 0).1 ?_
  intro p hp
  have h5 := hvals p hp
  have : (0 : Rat) < p.2 := by linarith
  exact div_pos this hpos

/-- C6 witness: the amended statement at a concrete frequency map. -/
theorem c6_frequency_costs_witness :
    (([([0x61], (7 : Rat))] : List (List Nat × Rat)) ≠ []) ∧
    (loadFrequencies (fun _ => 0) [([0x61], 7)]).totalTokens =
      specSumEff [([0x61], 7)] :=
  ⟨by decide, (c6_frequency_costs (fun _ => 0) [([0x61], 7)] (by decide)).1⟩

/-! ### C4/C5: the normalizer -/

theorem mem_insertMod {y x : List Nat} : ∀ {l}, y ∈ insertMod x l → y = x ∨ y ∈ l := by
  intro l
  induction l with
  | nil => intro h; exact Or.inl (List.mem_singleton.mp h)
  | cons z zs ih =>
    intro h
    rw [insertMod] at h
    revert h
    split
    · intro h
      rcases List.mem_cons.mp h with h1 | h1
      · exact Or.inr (by simp [h1])
      · rcases ih h1 with h2 | h2
        · exact Or.inl h2
        · exact Or.inr (List.mem_cons_of_mem z h2)
    · intro h
      rcases List.mem_cons.mp h with h1 | h1
      · exact Or.inl h1
      · exact Or.inr h1

theorem mem_sortMods {y : List Nat} : ∀ {l}, y ∈ sortMods l → y ∈ l := by
  intro l
  induction l with
  | nil => intro h; rw [sortMods] at h; simp at h
  | cons x xs ih =>
    intro h
    rw [sortMods] at h
    rcases mem_insertMod h with h1 | h1
    · simp [h1]
    · exact List.mem_cons_of_mem x (ih h1)

theorem sortCluster_chars {parts : List (List Nat)} {c : Nat} (h : c ∈ sortCluster parts) :
    ∃ p ∈ parts, c ∈ p := by
  cases parts with
  | nil => rw [sortCluster] at h; simp at h
  | cons base mods =>
    rw [sortCluster] at h
    rcases List.mem_append.mp h with h1 | h1
    · exact ⟨base, by simp, h1⟩
    · obtain ⟨p, hp, hc⟩ := List.mem_flatten.mp h1
      exact ⟨p, List.mem_cons_of_mem base (mem_sortMods hp), hc⟩

theorem flushC_chars {cur : List (List Nat)} {c : Nat} (h : c ∈ (flushC cur).flatten) :
    ∃ p ∈ cur, c ∈ p := by
  rw [flushC] at h
  revert h
  split
  · intro h; simp at h
  · intro h
    simp only [List.flatten_cons, List.flatten_nil, List.append_nil] at h
    exact sortCluster_chars h

theorem normLoop_cons (c : Nat) (rest : List Nat) (cur : List (List Nat)) :
    normLoop (c :: rest) cur =
      if charType c = .base then flushC cur ++ normLoop rest [[c]]
      else if charType c = .coeng then
        (match rest with
         | d :: rest' =>
           if charType d = .base then normLoop rest' (cur ++ [[c, d]])
           else normLoop (d :: rest') (cur ++ [[c]])
         | [] => flushC (cur ++ [[c]]))
      else if charType c = .register ∨ charType c = .vowel ∨ charType c = .sign then
        (if cur.isEmpty then [c] :: normLoop rest cur else normLoop rest (cur ++ [[c]]))
      else flushC cur ++ [c] :: normLoop rest [] := by
  cases rest <;> rfl

theorem normLoop_chars (P : Nat → Bool) :
    ∀ t cur, (∀ c ∈ t, P c = true) → (∀ p ∈ cur, ∀ c ∈ p, P c = true) →
      ∀ c ∈ (normLoop t cur).flatten, P c = true := by
  refine normLoop.induct
    (fun t cur => (∀ c ∈ t, P c = true) → (∀ p ∈ cur, ∀ c ∈ p, P c = true) →
      ∀ c ∈ (normLoop t cur).flatten, P c = true) ?_ ?_ ?_ ?_ ?_ ?_ ?_ ?_
  · intro cur ht hcur c hc
    rw [normLoop] at hc
    obtain ⟨p, hp, hcp⟩ := flushC_chars hc
    exact hcur p hp c hcp
  · intro c rest cur hb ih ht hcur c2 hc2
    rw [normLoop_cons, if_pos hb] at hc2
    rw [List.flatten_append] at hc2
    rcases List.mem_append.mp hc2 with h1 | h1
    · obtain ⟨p, hp, hcp⟩ := flushC_chars h1
      exact hcur p hp c2 hcp
    · refine ih (fun c3 hc3 => ht c3 (by simp [hc3])) ?_ c2 h1
      intro p hp c3 hc3
      rcases List.mem_singleton.mp hp with h2
      subst h2
      rcases List.mem_singleton.mp hc3 with h3
      subst h3
      exact ht c3 (by simp)
  · intro c cur hnb hco d tail hdb ih ht hcur c2 hc2
    rw [normLoop, if_neg hnb, if_pos hco] at hc2
    simp only [if_pos hdb] at hc2
    refine ih (fun c3 hc3 => ht c3 (by simp [hc3])) ?_ c2 hc2
    intro p hp c3 hc3
    rcases List.mem_append.mp hp with h1 | h1
    · exact hcur p h1 c3 hc3
    · rcases List.mem_singleton.mp h1 with h2
      subst h2
      rcases List.mem_cons.mp hc3 with h3 | h3
      · subst h3; exact ht c3 (by simp)
      · rcases List.mem_singleton.mp h3 with h4
        subst h4; exact ht c3 (by simp)
  · intro c cur hnb hco d tail hdb ih ht hcur c2 hc2
    rw [normLoop, if_neg hnb, if_pos hco] at hc2
    simp only [if_neg hdb] at hc2
    refine ih (fun c3 hc3 => ht c3 (by simp [hc3])) ?_ c2 hc2
    intro p hp c3 hc3
    rcases List.mem_append.mp hp with h1 | h1
    · exact hcur p h1 c3 hc3
    · rcases List.mem_singleton.mp h1 with h2
      subst h2
      rcases List.mem_singleton.mp hc3 with h3
      subst h3
      exact ht c3 (by simp)
  · intro c cur hnb hco ht hcur c2 hc2
    rw [normLoop, if_neg hnb, if_pos hco] at hc2
    obtain ⟨p, hp, hcp⟩ := flushC_chars hc2
    rcases List.mem_append.mp hp with h1 | h1
    · exact hcur p h1 c2 hcp
    · rcases List.mem_singleton.mp h1 with h2
      subst h2
      rcases List.mem_singleton.mp hcp with h3
      subst h3
      exact ht c2 (by simp)
  · intro c rest cur hnb hnc hmod hemp ih ht hcur c2 hc2
    rw [normLoop_cons, if_neg hnb, if_neg hnc, if_pos hmod, if_pos hemp] at hc2
    rw [List.flatten_cons] at hc2
    rcases List.mem_append.mp hc2 with h1 | h1
    · rcases List.mem_singleton.mp h1 with h2
      subst h2
      exact ht c2 (by simp)
    · exact ih (fun c3 hc3 => ht c3 (by simp [hc3])) hcur c2 h1
  · intro c rest cur hnb hnc hmod hemp ih ht hcur c2 hc2
    rw [normLoop_cons, if_neg hnb, if_neg hnc, if_pos hmod, if_neg hemp] at hc2
    refine ih (fun c3 hc3 => ht c3 (by simp [hc3])) ?_ c2 hc2
    intro p hp c3 hc3
    rcases List.mem_append.mp hp with h1 | h1
    · exact hcur p h1 c3 hc3
    · rcases List.mem_singleton.mp h1 with h2
      subst h2
      rcases List.mem_singleton.mp hc3 with h3
      subst h3
      exact ht c3 (by simp)
  · intro c rest cur hnb hnc hnm ih ht hcur c2 hc2
    rw [normLoop_cons, if_neg hnb, if_neg hnc, if_neg hnm] at hc2
    rw [List.flatten_append, List.flatten_cons] at hc2
    rcases List.mem_append.mp hc2 with h1 | h1
    · obtain ⟨p, hp, hcp⟩ := flushC_chars h1
      exact hcur p hp c2 hcp
    · rcases List.mem_append.mp h1 with h2 | h2
      · rcases List.mem_singleton.mp h2 with h3
        subst h3
        exact ht c2 (by simp)
      · exact ih (fun c3 hc3 => ht c3 (by simp [hc3])) (by simp) c2 h2

theorem replaceFirst_chars (P : Nat → Bool) (pat rep : List Nat)
    (hrep : ∀ c ∈ rep, P c = true) :
    ∀ t, (∀ c ∈ t, P c = true) → ∀ c ∈ replaceFirst pat rep t, P c = true := by
  intro t
  induction t with
  | nil => intro ht c hc; rw [replaceFirst] at hc; simp at hc
  | cons x rest ih =>
    intro ht c hc
    rw [replaceFirst] at hc
    revert hc
    split
    · intro hc
      rcases List.mem_append.mp hc with h1 | h1
      · exact hrep c h1
      · exact ht c (List.drop_subset _ _ h1)
    · intro hc
      rcases List.mem_cons.mp hc with h1 | h1
      · exact ht c (by simp [h1])
      · exact ih (fun c3 hc3 => ht c3 (by simp [hc3])) c h1

/-- C5 counterexample: the composite split vowel `U+17C1 U+17B8` *survives*
normalization of an input with two such pairs, because `String.replace` with a
string pattern replaces only the first occurrence. -/
theorem c5_pair_survives_cx :
    hasPair 0x17C1 0x17B8 (normalize [0x17C1, 0x17B8, 0x17C1, 0x17B8]) = true := by
  decide

/-- C5 (amended): the output of `normalize` never contains U+200B, U+200C or
U+200D; the split-vowel pairs, however, may survive (only the first occurrence
is fused, and the cluster sort can produce new ones). -/
theorem c5_no_zero_width (x : List Nat) :
    (normalize x).all (fun c => !isZW c) = true := by
  rw [List.all_eq_true]
  intro c hc
  rw [normalize] at hc
  have h1 : ∀ c2 ∈ stripZW x, (!isZW c2) = true := by
    intro c2 hc2
    have := List.of_mem_filter hc2
    simpa using this
  have h2 := replaceFirst_chars (fun c2 => !isZW c2) [0x17C1, 0x17B8] [0x17BE]
    (by decide) _ h1
  have h3 := replaceFirst_chars (fun c2 => !isZW c2) [0x17C1, 0x17B6] [0x17C4]
    (by decide) _ h2
  exact normLoop_chars (fun c2 => !isZW c2) _ [] h3 (by simp) c hc

/-- C4 counterexample: `normalize` is not idempotent.  On an input with two
split-vowel pairs the first pass fuses only the first pair and leaves the
second as two isolated vowels; the second pass then fuses those. -/
theorem c4_not_idempotent_cx :
    normalize (normalize [0x17C1, 0x17B8, 0x17C1, 0x17B8]) ≠
      normalize [0x17C1, 0x17B8, 0x17C1, 0x17B8] := by
  decide

theorem plainChar_base_or_other {c : Nat} (h : plainChar c = true) :
    charType c = CType.base ∨ charType c = CType.other := by
  rw [plainChar] at h
  simp only [Bool.and_eq_true, Bool.or_eq_true, beq_iff_eq] at h
  tauto

theorem plainChar_not_zw {c : Nat} (h : plainChar c = true) : isZW c = false := by
  rw [plainChar] at h
  simp only [Bool.and_eq_true, Bool.not_eq_true'] at h
  exact h.2

theorem plainChar_ne_17C1 {c : Nat} (h : plainChar c = true) : c ≠ 0x17C1 := by
  intro he
  subst he
  revert h
  decide

theorem stripZW_id {x : List Nat} (h : ∀ c ∈ x, isZW c = false) : stripZW x = x := by
  rw [stripZW]
  refine List.filter_eq_self.mpr ?_
  intro a ha
  simp [h a ha]

theorem replaceFirst_id {a : Nat} {p rep : List Nat} :
    ∀ {t}, (∀ c ∈ t, c ≠ a) → replaceFirst (a :: p) rep t = t := by
  intro t
  induction t with
  | nil => intro _; rw [replaceFirst]
  | cons x rest ih =>
    intro h
    have hxa : x ≠ a := h x (by simp)
    rw [replaceFirst]
    rw [if_neg ?_]
    · rw [ih (fun c hc => h c (by simp [hc]))]
    · simp only [List.isPrefixOf, Bool.and_eq_true, beq_iff_eq]
      intro hax
      exact hxa hax.1.symm

theorem normLoop_plain :
    ∀ t, (∀ c ∈ t, plainChar c = true) →
      (normLoop t []).flatten = t ∧
      ∀ b, (normLoop t [[b]]).flatten = b :: (normLoop t []).flatten := by
  intro t
  induction t with
  | nil =>
    intro _
    exact ⟨rfl, fun b => rfl⟩
  | cons c rest ih =>
    intro h
    have hc := h c (by simp)
    have hrest : ∀ c2 ∈ rest, plainChar c2 = true := fun c2 hc2 => h c2 (by simp [hc2])
    obtain ⟨ih1, ih2⟩ := ih hrest
    rcases plainChar_base_or_other hc with hb | ho
    · have hmain : (normLoop (c :: rest) []).flatten = c :: rest := by
        rw [normLoop_cons, if_pos hb]
        show (normLoop rest [[c]]).flatten = c :: rest
        rw [ih2 c, ih1]
      refine ⟨hmain, ?_⟩
      intro b
      rw [normLoop_cons, if_pos hb]
      show (([[b]] : List (List Nat)) ++ normLoop rest [[c]]).flatten = _
      rw [List.flatten_append, hmain, ih2 c, ih1]
      rfl
    · have hnb : ¬charType c = CType.base := by rw [ho]; intro hx; cases hx
      have hnc : ¬charType c = CType.coeng := by rw [ho]; intro hx; cases hx
      have hnm : ¬(charType c = CType.register ∨ charType c = CType.vowel ∨
          charType c = CType.sign) := by
        rw [ho]
        intro hx
        rcases hx with hx | hx | hx <;> cases hx
      have hmain : (normLoop (c :: rest) []).flatten = c :: rest := by
        rw [normLoop_cons, if_neg hnb, if_neg hnc, if_neg hnm]
        show (([c] :: normLoop rest []) : List (List Nat)).flatten = c :: rest
        rw [List.flatten_cons, ih1]
        rfl
      refine ⟨hmain, ?_⟩
      intro b
      rw [normLoop_cons, if_neg hnb, if_neg hnc, if_neg hnm]
      show (([[b]] : List (List Nat)) ++ [c] :: normLoop rest []).flatten = _
      rw [List.flatten_append, hmain]
      show [b] ++ ([c] :: normLoop rest []).flatten = _
      rw [List.flatten_cons, ih1]
      rfl

theorem normalize_plain_id {x : List Nat} (h : ∀ c ∈ x, plainChar c = true) :
    normalize x = x := by
  rw [normalize]
  rw [stripZW_id (fun c hc => plainChar_not_zw (h c hc))]
  rw [replaceFirst_id (fun c hc => plainChar_ne_17C1 (h c hc))]
  rw [replaceFirst_id (fun c hc => plainChar_ne_17C1 (h c hc))]
  exact (normLoop_plain x h).1

/-- C4 (amended): `normalize` is idempotent on inputs consisting only of plain
characters (Khmer bases and non-combining non-Khmer characters, no
zero-widths); on general inputs it is not (see the counterexample). -/
theorem c4_idempotent_on_plain (x : List Nat) (h : ∀ c ∈ x, plainChar c = true) :
    normalize (normalize x) = normalize x := by
  rw [normalize_plain_id h, normalize_plain_id h]

/-- C4 witness: idempotence at a concrete plain input. -/
theorem c4_idempotent_on_plain_witness :
    (∀ c ∈ [0x1780, 0x61], plainChar c = true) ∧
    normalize (normalize [0x1780, 0x61]) = normalize [0x1780, 0x61] :=
  ⟨by decide, c4_idempotent_on_plain [0x1780, 0x61] (by decide)⟩

end KhSeg
